import Mathlib

/-!
# Face-Restoration-TensorRT: the marshalling around the inference engine

A shallow embedding of `src/face_restoration.cpp`: the pre-processor
(`imagePreProcess`, `blobFromImages`), the inference invoker (`doInference`), the
post-processor (`imagesPostProcess`) and the entry point `infer`.

Modelling conventions.

* `float` and `double` follow IEEE-754 binary32 and binary64 with round-to-nearest-even and
  no contraction of intermediate results.  A finite value is the rational it denotes; a
  rounding to `p` significand bits is `roundToPrec p`.  The exponent range is not bounded:
  every intermediate value this program computes from an 8-bit pixel or from a binary32
  tensor element is either zero or has magnitude between `2^(-25)` and `2^128`, far inside
  the normal range of both formats.  The sign of zero is not recorded; no comparison and
  no conversion in the program depends on it.
* A raw buffer (`float*`, `uint8_t*`) is a map from offsets to values; a store is a
  `Function.update`.
* A `cv::Mat` of type `CV_8UC3` is its size and its continuous, interleaved byte storage.
* The constants of `face_restoration.hpp` (`BATCH_SIZE`, `INPUT_H`, `INPUT_W`, `CHANNELS`,
  `INPUT_SIZE`, `OUTPUT_SIZE`) are fields of `Config`; index arithmetic is over `ℕ`, the
  constants being small enough for `int`.
* `cv::resize`, the CUDA runtime and the TensorRT engine are external: they are parameters.
* An out-of-range read of a `std::vector`, an `abort()` and a loop that never ends all mean
  that the function yields no result: the model returns `none`.
* The text of `infer` closes the function body before `return py_output;`; the model returns
  `py_output`, as the declared return type requires.  The result is described by the
  arguments `infer` passes to `py::buffer_info`.
-/

namespace FaceRestoration

/-! ## IEEE-754 values and rounding -/

/-- Number of binary digits of `n`, by halving (`fuel` bounds the number of halvings). -/
def bitLen : ℕ → ℕ → ℕ
  | 0, _ => 0
  | fuel + 1, n => if n = 0 then 0 else bitLen fuel (n / 2) + 1

/-- Binary exponent of a non-zero rational: the `e` with `2^e ≤ |q| < 2^(e+1)`. -/
def binExp (q : ℚ) : ℤ :=
  let e0 : ℤ := (bitLen q.num.natAbs q.num.natAbs : ℤ) - (bitLen q.den q.den : ℤ)
  if (2 : ℚ) ^ e0 ≤ |q| then e0 else e0 - 1

/-- Nearest integer, ties to the even one. -/
def roundHalfEven (m : ℚ) : ℤ :=
  let f := ⌊m⌋
  if m - f < 1/2 then f
  else if 1/2 < m - f then f + 1
  else if f % 2 = 0 then f else f + 1

/-- Round-to-nearest-even into the binary format with `p` significand bits
(`p = 24` for `float`, `p = 53` for `double`). -/
def roundToPrec (p : ℕ) (q : ℚ) : ℚ :=
  if q = 0 then 0 else
  let e := binExp q
  let ulp : ℚ := 2 ^ (e - p + 1)
  (roundHalfEven (q / ulp)) * ulp

/-- Values of the C++ types `float` and `double`. -/
inductive FloatVal where
  | nan : FloatVal
  | negInf : FloatVal
  | posInf : FloatVal
  | fin (q : ℚ) : FloatVal
  deriving DecidableEq

namespace FloatVal

/-- Conversion to the format with `p` significand bits (`double` to `float` for `p = 24`). -/
def round (p : ℕ) : FloatVal → FloatVal
  | fin q => fin (roundToPrec p q)
  | x => x

/-- Product `x * c` with a finite constant `c`, rounded to `p` bits. -/
def mulC (p : ℕ) (x : FloatVal) (c : ℚ) : FloatVal :=
  match x with
  | nan => nan
  | fin q => fin (roundToPrec p (q * c))
  | posInf => if 0 < c then posInf else if c < 0 then negInf else nan
  | negInf => if 0 < c then negInf else if c < 0 then posInf else nan

/-- Quotient `x / c` by a finite non-zero constant `c`, rounded to `p` bits. -/
def divC (p : ℕ) (x : FloatVal) (c : ℚ) : FloatVal :=
  match x with
  | nan => nan
  | fin q => if c = 0 then nan else fin (roundToPrec p (q / c))
  | posInf => if 0 < c then posInf else if c < 0 then negInf else nan
  | negInf => if 0 < c then negInf else if c < 0 then posInf else nan

/-- Sum `x + c` with a finite constant `c`, rounded to `p` bits. -/
def addC (p : ℕ) (x : FloatVal) (c : ℚ) : FloatVal :=
  match x with
  | fin q => fin (roundToPrec p (q + c))
  | x => x

/-- Difference `x - c` with a finite constant `c`, rounded to `p` bits. -/
def subC (p : ℕ) (x : FloatVal) (c : ℚ) : FloatVal :=
  match x with
  | fin q => fin (roundToPrec p (q - c))
  | x => x

/-- The comparison `a < b`; false whenever an operand is NaN. -/
def lt : FloatVal → FloatVal → Bool
  | fin a, fin b => decide (a < b)
  | negInf, fin _ => true
  | negInf, posInf => true
  | fin _, posInf => true
  | _, _ => false

/-- The comparison `a <= b`; false whenever an operand is NaN. -/
def le : FloatVal → FloatVal → Bool
  | fin a, fin b => decide (a ≤ b)
  | negInf, fin _ => true
  | negInf, posInf => true
  | negInf, negInf => true
  | posInf, posInf => true
  | fin _, posInf => true
  | _, _ => false

/-- The function `std::max(a, b)`, which is `(a < b) ? b : a`. -/
def stdMax (a b : FloatVal) : FloatVal := if lt a b then b else a

/-- The function `std::min(a, b)`, which is `(b < a) ? b : a`. -/
def stdMin (a b : FloatVal) : FloatVal := if lt b a then b else a

/-- The conversion `static_cast<uint8_t>(x)`: truncation toward zero.  C++ defines it only
for `-1 < x < 256`; see `castU8Defined`. -/
def castU8 : FloatVal → ℕ
  | fin q => ⌊q⌋.toNat
  | _ => 0

/-- The operand range on which `static_cast<uint8_t>` is defined. -/
def castU8Defined : FloatVal → Prop
  | fin q => -1 < q ∧ q < 256
  | _ => False

end FloatVal

open FloatVal

/-! ## Data model -/

/-- Compile-time constants of `face_restoration.hpp`. -/
structure Config where
  BATCH_SIZE : ℕ
  INPUT_H : ℕ
  INPUT_W : ℕ
  CHANNELS : ℕ
  INPUT_SIZE : ℕ
  OUTPUT_SIZE : ℕ

/-- A host tensor buffer (`float*`). -/
abbrev Buf := ℕ → FloatVal

/-- A `cv::Mat` of type `CV_8UC3` with continuous storage: byte `(h * cols + w) * 3 + c` is
channel `c` of the pixel in row `h`, column `w`. -/
structure Mat where
  rows : ℕ
  cols : ℕ
  data : ℕ → ℕ

/-- The accessor `img.at<cv::Vec3b>(h, w)[c]` as a read. -/
def Mat.atVec3b (m : Mat) (h w c : ℕ) : ℕ := m.data ((h * m.cols + w) * 3 + c)

/-- The accessor `img.at<cv::Vec3b>(h, w)[c] = v` as a store. -/
def Mat.setVec3b (m : Mat) (h w c v : ℕ) : Mat :=
  { m with data := Function.update m.data ((h * m.cols + w) * 3 + c) v }

/-- The conversions `cv::COLOR_BGR2RGB` and `cv::COLOR_RGB2BGR` of `cv::cvtColor`: both swap
channels 0 and 2 of every pixel. -/
def cvtColor (m : Mat) : Mat :=
  { m with data := fun j => m.data (j / 3 * 3 + (2 - j % 3)) }

/-! ## Pre-processor -/

/-- `FaceRestoration::imagePreProcess`: colour conversion, then `cv::resize` to
`cv::Size(INPUT_W, INPUT_H)`.  `resize width height src` stands for `cv::resize`. -/
def imagePreProcess (cfg : Config) (resize : ℕ → ℕ → Mat → Mat) (img : Mat) : Mat :=
  resize cfg.INPUT_W cfg.INPUT_H (cvtColor img)

/-- The value `((float)p / 255.0 - 0.5) / 0.5` stored as `float`: the arithmetic is in
`double`, the result is converted to `float`. -/
def normalize (p : ℕ) : FloatVal :=
  round 24 (divC 53 (subC 53 (divC 53 (fin p) 255) (1/2)) (1/2))

/-- Flat offset written by `blobFromImages` for `(b, c, h, w)`, with `channels = 3`. -/
def blobIndex (cfg : Config) (b c h w : ℕ) : ℕ :=
  b * 3 * cfg.INPUT_W * cfg.INPUT_H + c * cfg.INPUT_W * cfg.INPUT_H + h * cfg.INPUT_W + w

/-- The stores of the `c`, `h`, `w` loops of `blobFromImages` for batch slot `b`, in
program order: offset and value. -/
def imageStores (cfg : Config) (b : ℕ) (img : Mat) : List (ℕ × FloatVal) :=
  (List.range 3).flatMap fun c =>
    (List.range cfg.INPUT_H).flatMap fun h =>
      (List.range cfg.INPUT_W).map fun w =>
        (blobIndex cfg b c h w, normalize (img.atVec3b h w c))

/-- The stores of the first `n` iterations of the `b` loop of `blobFromImages`; `none` when an
iteration reads `imgs[b]` past the end of the vector (undefined behaviour). -/
def blobStores (cfg : Config) (imgs : List Mat) : ℕ → Option (List (ℕ × FloatVal))
  | 0 => some []
  | b + 1 =>
    match blobStores cfg imgs b, imgs[b]? with
    | some ws, some img => some (ws ++ imageStores cfg b img)
    | _, _ => none

/-- Effect of a sequence of stores on a buffer. -/
def applyStores (buf : Buf) (ws : List (ℕ × FloatVal)) : Buf :=
  ws.foldl (fun m s => Function.update m s.1 s.2) buf

/-- `FaceRestoration::blobFromImages`: the buffer `input` after the call. -/
def blobFromImages (cfg : Config) (imgs : List Mat) (input : Buf) : Option Buf :=
  (blobStores cfg imgs cfg.BATCH_SIZE).map (applyStores input)

/-! ## Post-processor -/

/-- The `float` that `imagesPostProcess` hands to `static_cast<uint8_t>`:
`pixel = x * 0.5 + 0.5` (in `double`, stored as `float`),
`pixel = std::min(1.0f, std::max(0.0f, pixel))`, `pixel *= 255`. -/
def denormFloat (x : FloatVal) : FloatVal :=
  let pixel := round 24 (addC 53 (mulC 53 x (1/2)) (1/2))
  let pixel := stdMin (fin 1) (stdMax (fin 0) pixel)
  mulC 24 pixel 255

/-- The byte `imagesPostProcess` stores for the tensor value `x`. -/
def denorm (x : FloatVal) : ℕ := castU8 (denormFloat x)

/-- Position `(w, h, c)` that iteration `i` of the inner loop of `imagesPostProcess` writes. -/
def pixelCoord (cfg : Config) (i : ℕ) : ℕ × ℕ × ℕ :=
  (i % cfg.INPUT_W, (i / cfg.INPUT_W) % cfg.INPUT_H, i / (cfg.INPUT_W * cfg.INPUT_H))

/-- One iteration of the outer loop of `imagesPostProcess`: a fresh `INPUT_H x INPUT_W` image
(storage content `uninit`), filled from `output[index .. index + step)`, then
`cv::COLOR_RGB2BGR`. -/
def slotImage (cfg : Config) (uninit : ℕ → ℕ) (output : Buf) (index : ℕ) : Mat :=
  let step := cfg.INPUT_H * cfg.INPUT_W * cfg.CHANNELS
  let img : Mat := ⟨cfg.INPUT_H, cfg.INPUT_W, uninit⟩
  cvtColor ((List.range step).foldl (fun img i =>
    let wc := pixelCoord cfg i
    img.setVec3b wc.2.1 wc.1 wc.2.2 (denorm (output (index + i)))) img)

/-- The outer loop `for (index = 0; index < OUTPUT_SIZE; index += step)` of
`imagesPostProcess`, run for at most `fuel` tests of its condition; `none` when the fuel
runs out. `heap index` is the content of the storage allocated in the iteration at `index`. -/
def postLoop (cfg : Config) (heap : ℕ → ℕ → ℕ) (output : Buf) :
    ℕ → ℕ → List Mat → Option (List Mat)
  | 0, _, _ => none
  | fuel + 1, index, cvimgs =>
    if index < cfg.OUTPUT_SIZE then
      postLoop cfg heap output fuel (index + cfg.INPUT_H * cfg.INPUT_W * cfg.CHANNELS)
        (cvimgs ++ [slotImage cfg (heap index) output index])
    else some cvimgs

/-- `FaceRestoration::imagesPostProcess`: the vector `cvimgs` after the call; `none` when the
loop does not terminate (`OUTPUT_SIZE + 1` tests suffice whenever it does). -/
def imagesPostProcess (cfg : Config) (heap : ℕ → ℕ → ℕ) (output : Buf) (cvimgs : List Mat) :
    Option (List Mat) :=
  postLoop cfg heap output (cfg.OUTPUT_SIZE + 1) 0 cvimgs

/-! ## Inference invoker -/

/-- The runtime calls of `doInference`, in program order. -/
inductive CudaCall where
  | cudaMallocInput
  | cudaMallocOutput
  | cudaStreamCreate
  | cudaMemcpyAsyncHostToDevice
  | enqueueV2
  | cudaMemcpyAsyncDeviceToHost
  | cudaStreamSynchronize
  | cudaStreamDestroy
  | cudaFreeInput
  | cudaFreeOutput
  deriving DecidableEq

/-- The external runtime: the status each call returns, and the contents the engine and the
copies leave in the host `output` buffer for given contents of `input`. -/
structure Runtime where
  status : CudaCall → ℤ
  engine : Buf → Buf

/-- Progress of one `doInference` call: the calls issued so far and whether `abort()` was
reached. -/
structure Run where
  calls : List CudaCall
  aborted : Bool
  deriving DecidableEq

/-- The macro `CHECK(call)`: issue the call and `abort()` when its status is not 0. -/
def CHECK (rt : Runtime) (c : CudaCall) (r : Run) : Run :=
  if r.aborted then r else ⟨r.calls ++ [c], decide (rt.status c ≠ 0)⟩

/-- A call outside `CHECK`: issued, its status discarded. -/
def unchecked (c : CudaCall) (r : Run) : Run :=
  if r.aborted then r else ⟨r.calls ++ [c], false⟩

/-- Control flow of `FaceRestoration::doInference`. -/
def doInferenceRun (rt : Runtime) : Run :=
  (⟨[], false⟩ : Run)
    |> CHECK rt .cudaMallocInput
    |> CHECK rt .cudaMallocOutput
    |> CHECK rt .cudaStreamCreate
    |> CHECK rt .cudaMemcpyAsyncHostToDevice
    |> unchecked .enqueueV2
    |> CHECK rt .cudaMemcpyAsyncDeviceToHost
    |> unchecked .cudaStreamSynchronize
    |> unchecked .cudaStreamDestroy
    |> CHECK rt .cudaFreeInput
    |> CHECK rt .cudaFreeOutput

/-- `FaceRestoration::doInference`: the host `output` buffer after a normal return, `none` when
the process aborted. -/
def doInference (rt : Runtime) (input : Buf) : Option Buf :=
  if (doInferenceRun rt).aborted then none else some (rt.engine input)

/-! ## Entry point -/

/-- A C-contiguous `py::array_t<uint8_t>`. -/
structure PyArray where
  shape : List ℕ
  data : ℕ → ℕ

/-- The arguments of the `py::buffer_info` from which `infer` builds its result. -/
structure BufferInfo where
  ndim : ℕ
  shape : List ℕ
  strides : List ℕ
  data : ℕ → ℕ

/-- The members `input` and `output` of `FaceRestoration`. -/
structure Buffers where
  input : Buf
  output : Buf

/-- Content of freshly allocated `cv::Mat` storage: `slot` for the images of
`imagesPostProcess`, `reshaped` for the matrix `reshaped` of `infer`. -/
structure Heap where
  slot : ℕ → ℕ → ℕ
  reshaped : ℕ → ℕ

/-- The function `cv::vconcat` on a vector of images of equal width. -/
def vconcat : List Mat → Mat
  | [] => ⟨0, 0, fun _ => 0⟩
  | m :: ms =>
    ⟨m.rows + (vconcat ms).rows, m.cols,
      fun j => if j < m.rows * m.cols * 3 then m.data j
        else (vconcat ms).data (j - m.rows * m.cols * 3)⟩

/-- `FaceRestoration::infer`: the `py::buffer_info` of the returned array and the members
after the call; `none` when no array is returned (out-of-range read, abort, exception or
non-termination). -/
def infer (cfg : Config) (resize : ℕ → ℕ → Mat → Mat) (rt : Runtime) (heap : Heap)
    (st : Buffers) (imgs : PyArray) : Option (BufferInfo × Buffers) := do
  let batch_size ← imgs.shape[0]?
  let rows ← imgs.shape[1]?
  let cols ← imgs.shape[2]?
  let channels ← imgs.shape[3]?
  let cvimgs := (List.range batch_size).map fun index =>
    imagePreProcess cfg resize
      ⟨rows, cols, fun j => imgs.data (index * rows * cols * channels + j)⟩
  let input ← blobFromImages cfg cvimgs st.input
  let output ← doInference rt input
  let res ← imagesPostProcess cfg heap.slot output []
  let concatenated := vconcat res
  let reshaped : Mat := ⟨concatenated.rows, batch_size * cols, heap.reshaped⟩
  pure (⟨3, [batch_size, rows, cols, 3],
      [batch_size * cols * 3, cols * 3, 3, 1], reshaped.data⟩, ⟨input, output⟩)

/-! ## Auxiliary definitions used to state the loop lemmas -/

/-- An empty image, the default of out-of-range lookups in statements. -/
def Mat.empty : Mat := ⟨0, 0, fun _ => 0⟩

/-- Number of tensor elements per batch slot: `3 * INPUT_H * INPUT_W`. -/
def Config.slotSize (cfg : Config) : ℕ := 3 * (cfg.INPUT_H * cfg.INPUT_W)

/-- The value `blobFromImages` stores at offset `k` of the slot of image `img`: channel
`k / (H * W)` of the pixel in row `k % (H * W) / W`, column `k % (H * W) % W`. -/
def slotValue (cfg : Config) (img : Mat) (k : ℕ) : FloatVal :=
  normalize (img.atVec3b (k % (cfg.INPUT_H * cfg.INPUT_W) / cfg.INPUT_W)
    (k % (cfg.INPUT_H * cfg.INPUT_W) % cfg.INPUT_W) (k / (cfg.INPUT_H * cfg.INPUT_W)))

/-- The value `blobFromImages` stores at offset `j` of the whole tensor. -/
def blobValue (cfg : Config) (imgs : List Mat) (j : ℕ) : FloatVal :=
  slotValue cfg (imgs.getD (j / cfg.slotSize) Mat.empty) (j % cfg.slotSize)

/-! ## Concrete inputs for the witnesses and counterexamples -/

/-- Constants with `BATCH_SIZE = 1` and a `1 x 1` model resolution. -/
def cfg1 : Config := ⟨1, 1, 1, 3, 3, 3⟩

/-- Constants with `BATCH_SIZE = 2` and a `1 x 2` model resolution. -/
def cfg2 : Config := ⟨2, 1, 2, 3, 12, 12⟩

/-- A solid-colour image with channel values `b`, `g`, `r`. -/
def solid (rows cols b g r : ℕ) : Mat :=
  ⟨rows, cols, fun j => if j % 3 = 0 then b else if j % 3 = 1 then g else r⟩

/-- A tensor buffer holding `0.0` everywhere. -/
def zeroBuf : Buf := fun _ => fin 0

/-- Fresh storage holding the byte `7` everywhere. -/
def sevens : ℕ → ℕ := fun _ => 7

/-- A nearest-neighbour stand-in for `cv::resize` in evaluations. -/
def sampleResize (width height : ℕ) (src : Mat) : Mat :=
  ⟨height, width, fun j =>
    src.data (((j / 3 / width) * src.rows / height * src.cols
      + (j / 3 % width) * src.cols / width) * 3 + j % 3)⟩

/-- A runtime in which every call succeeds and the engine copies its input. -/
def identityRuntime : Runtime := ⟨fun _ => 0, fun input => input⟩

/-- A runtime in which `cudaStreamSynchronize` reports error 700 and every other call
succeeds. -/
def syncFailRuntime : Runtime :=
  ⟨fun c => if c = CudaCall.cudaStreamSynchronize then 700 else 0, fun input => input⟩

/-! ## Rounding: exponent, symmetry, monotonicity -/

theorem bitLen_spec (fuel n : ℕ) (h : n ≤ fuel) (hn : 0 < n) :
    2 ^ (bitLen fuel n - 1) ≤ n ∧ n < 2 ^ bitLen fuel n ∧ 1 ≤ bitLen fuel n := by
  induction fuel generalizing n with
  | zero => omega
  | succ f ih =>
    rw [bitLen, if_neg (by omega)]
    by_cases h1 : n = 1
    · subst h1
      cases f <;> simp [bitLen]
    · have hpos : 0 < n / 2 := Nat.div_pos (by omega) (by norm_num)
      obtain ⟨a, b, c⟩ := ih (n / 2) (by omega) hpos
      refine ⟨?_, ?_, by omega⟩
      · have : bitLen f (n / 2) + 1 - 1 = (bitLen f (n / 2) - 1) + 1 := by omega
        rw [this, pow_succ]
        omega
      · rw [pow_succ]
        omega

theorem zpow_natCast_pred (l : ℕ) (hl : 1 ≤ l) :
    (2 : ℚ) ^ ((l : ℤ) - 1) = ((2 ^ (l - 1) : ℕ) : ℚ) := by
  push_cast
  rw [← zpow_natCast]
  congr 1
  omega

theorem binExp_spec {q : ℚ} (hq : q ≠ 0) :
    (2 : ℚ) ^ binExp q ≤ |q| ∧ |q| < 2 ^ (binExp q + 1) := by
  have hn : 0 < q.num.natAbs := Int.natAbs_pos.mpr (Rat.num_ne_zero.mpr hq)
  have hd : 0 < q.den := q.den_pos
  obtain ⟨n1, n2, n3⟩ := bitLen_spec _ _ le_rfl hn
  obtain ⟨d1, d2, d3⟩ := bitLen_spec _ _ le_rfl hd
  have habs : |q| = (q.num.natAbs : ℚ) / (q.den : ℚ) := by
    conv_lhs => rw [← Rat.num_div_den q]
    rw [abs_div, Nat.abs_cast, Nat.cast_natAbs, Int.cast_abs]
  set ln := bitLen q.num.natAbs q.num.natAbs
  set ld := bitLen q.den q.den
  have hdq : (0 : ℚ) < q.den := by exact_mod_cast hd
  have n1' : (2 : ℚ) ^ ((ln : ℤ) - 1) ≤ q.num.natAbs := by
    rw [zpow_natCast_pred ln n3]
    exact_mod_cast n1
  have n2' : (q.num.natAbs : ℚ) < 2 ^ (ln : ℤ) := by
    rw [zpow_natCast]
    exact_mod_cast n2
  have d1' : (2 : ℚ) ^ ((ld : ℤ) - 1) ≤ q.den := by
    rw [zpow_natCast_pred ld d3]
    exact_mod_cast d1
  have d2' : (q.den : ℚ) < 2 ^ (ld : ℤ) := by
    rw [zpow_natCast]
    exact_mod_cast d2
  have two : (2 : ℚ) ≠ 0 := by norm_num
  have pz : ∀ z : ℤ, (0 : ℚ) < 2 ^ z := fun z => zpow_pos (by norm_num) z
  have up : |q| < 2 ^ ((ln : ℤ) - ld + 1) := by
    rw [habs, div_lt_iff₀ hdq]
    calc (q.num.natAbs : ℚ) < 2 ^ (ln : ℤ) := n2'
      _ = 2 ^ ((ln : ℤ) - ld + 1) * 2 ^ ((ld : ℤ) - 1) := by
          rw [← zpow_add₀ two]; congr 1; omega
      _ ≤ 2 ^ ((ln : ℤ) - ld + 1) * q.den := mul_le_mul_of_nonneg_left d1' (pz _).le
  have lo : (2 : ℚ) ^ ((ln : ℤ) - ld - 1) ≤ |q| := by
    rw [habs, le_div_iff₀ hdq]
    calc (2 : ℚ) ^ ((ln : ℤ) - ld - 1) * q.den ≤ 2 ^ ((ln : ℤ) - ld - 1) * 2 ^ (ld : ℤ) :=
          mul_le_mul_of_nonneg_left d2'.le (pz _).le
      _ = 2 ^ ((ln : ℤ) - 1) := by rw [← zpow_add₀ two]; congr 1; omega
      _ ≤ q.num.natAbs := n1'
  unfold binExp
  simp only
  split_ifs with h
  · exact ⟨h, up⟩
  · refine ⟨lo, ?_⟩
    rw [sub_add_cancel]
    exact lt_of_not_le h

theorem binExp_eq_log {q : ℚ} (hq : q ≠ 0) : binExp q = Int.log 2 |q| := by
  obtain ⟨h1, h2⟩ := binExp_spec hq
  have hpos : 0 < |q| := abs_pos.mpr hq
  have a := (Int.zpow_le_iff_le_log (by norm_num : 1 < 2) hpos).mp h1
  have b := (Int.lt_zpow_iff_log_lt (by norm_num : 1 < 2) hpos).mp h2
  omega

theorem floor_le_roundHalfEven (m : ℚ) : ⌊m⌋ ≤ roundHalfEven m := by
  unfold roundHalfEven
  simp only
  split_ifs <;> omega

theorem roundHalfEven_le_floor_succ (m : ℚ) : roundHalfEven m ≤ ⌊m⌋ + 1 := by
  unfold roundHalfEven
  simp only
  split_ifs <;> omega

theorem roundHalfEven_intCast (n : ℤ) : roundHalfEven (n : ℚ) = n := by
  unfold roundHalfEven
  simp

theorem roundHalfEven_mono {a b : ℚ} (h : a ≤ b) : roundHalfEven a ≤ roundHalfEven b := by
  rcases (Int.floor_mono h).lt_or_eq with hlt | heq
  · calc roundHalfEven a ≤ ⌊a⌋ + 1 := roundHalfEven_le_floor_succ a
      _ ≤ ⌊b⌋ := hlt
      _ ≤ roundHalfEven b := floor_le_roundHalfEven b
  · unfold roundHalfEven
    simp only [heq]
    have hab : a - ⌊b⌋ ≤ b - ⌊b⌋ := by linarith
    split_ifs <;> first | omega | (exfalso; linarith)

theorem roundHalfEven_neg (m : ℚ) : roundHalfEven (-m) = - roundHalfEven m := by
  by_cases hm : (⌊m⌋ : ℚ) = m
  · rw [← hm, ← Int.cast_neg, roundHalfEven_intCast, roundHalfEven_intCast]
  · have h1 : (⌊m⌋ : ℚ) < m := lt_of_le_of_ne (Int.floor_le m) hm
    have h2 : m < ⌊m⌋ + 1 := Int.lt_floor_add_one m
    have hf : ⌊-m⌋ = -⌊m⌋ - 1 := by
      rw [Int.floor_eq_iff]
      push_cast
      constructor <;> linarith
    unfold roundHalfEven
    simp only [hf]
    push_cast
    split_ifs <;> first | omega | (exfalso; linarith)

theorem roundToPrec_zero (p : ℕ) : roundToPrec p 0 = 0 := by
  simp [roundToPrec]

theorem roundToPrec_eq (p : ℕ) {q : ℚ} (hq : q ≠ 0) :
    roundToPrec p q =
      roundHalfEven (q / 2 ^ (Int.log 2 |q| - p + 1)) * 2 ^ (Int.log 2 |q| - p + 1) := by
  unfold roundToPrec
  simp only [hq, if_false, binExp_eq_log hq]

theorem roundToPrec_neg (p : ℕ) (q : ℚ) : roundToPrec p (-q) = - roundToPrec p q := by
  by_cases hq : q = 0
  · simp [hq, roundToPrec_zero]
  · have hq' : -q ≠ 0 := neg_ne_zero.mpr hq
    rw [roundToPrec_eq p hq, roundToPrec_eq p hq', abs_neg, neg_div, roundHalfEven_neg]
    push_cast
    ring

theorem pow_mul_ulp (p : ℕ) (e : ℤ) (k : ℕ) (d : ℤ) (hk : (k : ℤ) + (e - p + 1) = d) :
    ((2 ^ k : ℕ) : ℚ) * 2 ^ (e - p + 1) = 2 ^ d := by
  push_cast
  rw [← zpow_natCast, ← zpow_add₀ (by norm_num : (2 : ℚ) ≠ 0), hk]

theorem scaled_bounds (p : ℕ) (hp : 1 ≤ p) {q : ℚ} (hq : 0 < q) :
    ((2 ^ (p - 1) : ℕ) : ℚ) ≤ q / 2 ^ (Int.log 2 q - p + 1) ∧
      q / 2 ^ (Int.log 2 q - p + 1) < ((2 ^ p : ℕ) : ℚ) := by
  have hu : (0 : ℚ) < 2 ^ (Int.log 2 q - p + 1) := zpow_pos (by norm_num) _
  have hlo : (2 : ℚ) ^ (Int.log 2 q) ≤ q := Int.zpow_log_le_self (by norm_num) hq
  have hhi : q < (2 : ℚ) ^ (Int.log 2 q + 1) := Int.lt_zpow_succ_log_self (by norm_num) q
  constructor
  · rw [le_div_iff₀ hu, pow_mul_ulp p _ (p - 1) (Int.log 2 q) (by omega)]; exact hlo
  · rw [div_lt_iff₀ hu, pow_mul_ulp p _ p (Int.log 2 q + 1) (by omega)]; exact hhi

theorem roundToPrec_pos_bounds (p : ℕ) (hp : 1 ≤ p) {q : ℚ} (hq : 0 < q) :
    (2 : ℚ) ^ (Int.log 2 q) ≤ roundToPrec p q ∧ roundToPrec p q ≤ 2 ^ (Int.log 2 q + 1) := by
  have hu : (0 : ℚ) < 2 ^ (Int.log 2 q - p + 1) := zpow_pos (by norm_num) _
  obtain ⟨hlo, hhi⟩ := scaled_bounds p hp hq
  have r1 : ((2 ^ (p - 1) : ℕ) : ℤ) ≤ roundHalfEven (q / 2 ^ (Int.log 2 q - p + 1)) := by
    have := roundHalfEven_mono hlo
    rwa [show ((2 ^ (p - 1) : ℕ) : ℚ) = (((2 ^ (p - 1) : ℕ) : ℤ) : ℚ) by push_cast; rfl,
      roundHalfEven_intCast] at this
  have r2 : roundHalfEven (q / 2 ^ (Int.log 2 q - p + 1)) ≤ ((2 ^ p : ℕ) : ℤ) := by
    have := roundHalfEven_mono hhi.le
    rwa [show ((2 ^ p : ℕ) : ℚ) = (((2 ^ p : ℕ) : ℤ) : ℚ) by push_cast; rfl,
      roundHalfEven_intCast] at this
  rw [roundToPrec_eq p (ne_of_gt hq), abs_of_pos hq]
  constructor
  · rw [← pow_mul_ulp p (Int.log 2 q) (p - 1) (Int.log 2 q) (by omega)]
    apply mul_le_mul_of_nonneg_right _ hu.le
    exact_mod_cast r1
  · rw [← pow_mul_ulp p (Int.log 2 q) p (Int.log 2 q + 1) (by omega)]
    apply mul_le_mul_of_nonneg_right _ hu.le
    exact_mod_cast r2

theorem roundToPrec_pos (p : ℕ) (hp : 1 ≤ p) {q : ℚ} (hq : 0 < q) : 0 < roundToPrec p q :=
  lt_of_lt_of_le (zpow_pos (by norm_num) _) (roundToPrec_pos_bounds p hp hq).1

theorem roundToPrec_mono_pos (p : ℕ) (hp : 1 ≤ p) {a b : ℚ} (ha : 0 < a) (hab : a ≤ b) :
    roundToPrec p a ≤ roundToPrec p b := by
  have hb : 0 < b := lt_of_lt_of_le ha hab
  have hlog : Int.log 2 a ≤ Int.log 2 b := Int.log_mono_right ha hab
  rcases hlog.lt_or_eq with hlt | heq
  · calc roundToPrec p a ≤ 2 ^ (Int.log 2 a + 1) := (roundToPrec_pos_bounds p hp ha).2
      _ ≤ 2 ^ (Int.log 2 b) := zpow_le_zpow_right₀ (by norm_num) (by omega)
      _ ≤ roundToPrec p b := (roundToPrec_pos_bounds p hp hb).1
  · rw [roundToPrec_eq p (ne_of_gt ha), roundToPrec_eq p (ne_of_gt hb), abs_of_pos ha,
      abs_of_pos hb, heq]
    have hu : (0 : ℚ) < 2 ^ (Int.log 2 b - p + 1) := zpow_pos (by norm_num) _
    apply mul_le_mul_of_nonneg_right _ hu.le
    exact_mod_cast roundHalfEven_mono (div_le_div_of_nonneg_right hab hu.le)

/-- Rounding to nearest is monotone. -/
theorem roundToPrec_mono (p : ℕ) (hp : 1 ≤ p) {a b : ℚ} (hab : a ≤ b) :
    roundToPrec p a ≤ roundToPrec p b := by
  rcases lt_trichotomy a 0 with ha | ha | ha
  · rcases lt_trichotomy b 0 with hb | hb | hb
    · have := roundToPrec_mono_pos p hp (neg_pos.mpr hb) (neg_le_neg hab)
      rw [roundToPrec_neg, roundToPrec_neg] at this
      linarith
    · have := roundToPrec_pos p hp (neg_pos.mpr ha)
      rw [roundToPrec_neg] at this
      rw [hb, roundToPrec_zero]
      linarith
    · have h1 := roundToPrec_pos p hp (neg_pos.mpr ha)
      rw [roundToPrec_neg] at h1
      have h2 := roundToPrec_pos p hp hb
      linarith
  · rcases hab.lt_or_eq with hb | hb
    · rw [ha, roundToPrec_zero]
      exact (roundToPrec_pos p hp (ha ▸ hb)).le
    · rw [← hb]
  · exact roundToPrec_mono_pos p hp ha hab

theorem roundToPrec_24_one : roundToPrec 24 1 = 1 := by decide!

theorem roundToPrec_24_255 : roundToPrec 24 255 = 255 := by decide!

theorem roundToPrec_53_half : roundToPrec 53 (1/2) = 1/2 := by decide!

theorem roundToPrec_53_one : roundToPrec 53 1 = 1 := by decide!

/-! ## The pixel maps `normalize` and `denorm` -/

/-- The clamped `float` of `imagesPostProcess` for a finite tensor value, as a rational. -/
theorem denormFloat_fin (q : ℚ) :
    denormFloat (fin q) =
      fin (roundToPrec 24
        (min 1 (max 0 (roundToPrec 24 (roundToPrec 53 (roundToPrec 53 (q * (1/2)) + 1/2))))
          * 255)) := by
  simp only [denormFloat, mulC, addC, FloatVal.round, stdMax, stdMin, FloatVal.lt]
  set t := roundToPrec 24 (roundToPrec 53 (roundToPrec 53 (q * (1/2)) + 1/2)) with ht
  by_cases h0 : 0 < t
  · by_cases h1 : t < 1
    · simp [h0, h1, FloatVal.lt, mulC, max_eq_right h0.le, min_eq_right h1.le]
    · have h1' : 1 ≤ t := not_lt.mp h1
      simp [h0, h1, FloatVal.lt, mulC, max_eq_right h0.le, min_eq_left h1']
  · have h0' : t ≤ 0 := not_lt.mp h0
    simp [h0, FloatVal.lt, mulC, max_eq_left h0']

theorem denormFloat_nan : denormFloat nan = fin 0 := by
  simp [denormFloat, mulC, addC, FloatVal.round, stdMax, stdMin, FloatVal.lt, roundToPrec_zero]

theorem denormFloat_negInf : denormFloat negInf = fin 0 := by
  simp [denormFloat, mulC, addC, FloatVal.round, stdMax, stdMin, FloatVal.lt, roundToPrec_zero]

theorem denormFloat_posInf : denormFloat posInf = fin 255 := by
  simp [denormFloat, mulC, addC, FloatVal.round, stdMax, stdMin, FloatVal.lt,
    roundToPrec_24_255]

/-- The value handed to the cast is a finite number in `[0, 255]`. -/
theorem denormFloat_range (x : FloatVal) :
    ∃ r : ℚ, denormFloat x = fin r ∧ 0 ≤ r ∧ r ≤ 255 := by
  cases x with
  | nan => exact ⟨0, denormFloat_nan, le_rfl, by norm_num⟩
  | negInf => exact ⟨0, denormFloat_negInf, le_rfl, by norm_num⟩
  | posInf => exact ⟨255, denormFloat_posInf, by norm_num, le_rfl⟩
  | fin q =>
    refine ⟨_, denormFloat_fin q, ?_, ?_⟩
    · have h0 : (0 : ℚ) ≤ min 1 (max 0
          (roundToPrec 24 (roundToPrec 53 (roundToPrec 53 (q * (1/2)) + 1/2)))) * 255 :=
        mul_nonneg (le_min zero_le_one (le_max_left _ _)) (by norm_num)
      have := roundToPrec_mono 24 (by norm_num) h0
      rwa [roundToPrec_zero] at this
    · have h1 : min 1 (max 0
          (roundToPrec 24 (roundToPrec 53 (roundToPrec 53 (q * (1/2)) + 1/2)))) * 255
          ≤ (255 : ℚ) := by
        have := min_le_left (1 : ℚ)
          (max 0 (roundToPrec 24 (roundToPrec 53 (roundToPrec 53 (q * (1/2)) + 1/2))))
        linarith
      have := roundToPrec_mono 24 (by norm_num) h1
      rwa [roundToPrec_24_255] at this

theorem denorm_le_255 (x : FloatVal) : denorm x ≤ 255 := by
  obtain ⟨r, hr, h0, h1⟩ := denormFloat_range x
  simp only [denorm, hr, castU8]
  have : ⌊r⌋ ≤ 255 := by
    have := Int.floor_mono h1
    simpa using this
  omega

theorem castU8_mono {a b : ℚ} (h : a ≤ b) : castU8 (fin a) ≤ castU8 (fin b) := by
  simp only [castU8]
  exact Int.toNat_le_toNat (Int.floor_mono h)

/-- The intermediate `float` value `x * 0.5 + 0.5` is monotone in a finite `x`. -/
theorem affine_mono {a b : ℚ} (h : a ≤ b) :
    roundToPrec 24 (roundToPrec 53 (roundToPrec 53 (a * (1/2)) + 1/2)) ≤
      roundToPrec 24 (roundToPrec 53 (roundToPrec 53 (b * (1/2)) + 1/2)) := by
  apply roundToPrec_mono 24 (by norm_num)
  apply roundToPrec_mono 53 (by norm_num)
  have := roundToPrec_mono 53 (by norm_num) (a := a * (1/2)) (b := b * (1/2)) (by linarith)
  linarith

theorem denorm_fin_mono {a b : ℚ} (h : a ≤ b) : denorm (fin a) ≤ denorm (fin b) := by
  simp only [denorm, denormFloat_fin]
  apply castU8_mono
  apply roundToPrec_mono 24 (by norm_num)
  have := affine_mono h
  have h2 : min 1 (max 0 (roundToPrec 24 (roundToPrec 53 (roundToPrec 53 (a * (1/2)) + 1/2))))
      ≤ min 1 (max 0 (roundToPrec 24 (roundToPrec 53 (roundToPrec 53 (b * (1/2)) + 1/2)))) :=
    min_le_min le_rfl (max_le_max le_rfl this)
  linarith

theorem denorm_negInf : denorm negInf = 0 := by
  simp [denorm, denormFloat_negInf, castU8]

theorem denorm_posInf : denorm posInf = 255 := by
  simp [denorm, denormFloat_posInf, castU8]

theorem denorm_fin_neg_one : denorm (fin (-1)) = 0 := by decide!

theorem denorm_fin_one : denorm (fin 1) = 255 := by decide!

theorem denorm_zero_of_le {q : ℚ} (h : q ≤ -1) : denorm (fin q) = 0 := by
  have := denorm_fin_mono h
  rw [denorm_fin_neg_one] at this
  omega

theorem denorm_255_of_ge {q : ℚ} (h : 1 ≤ q) : denorm (fin q) = 255 := by
  have := denorm_fin_mono h
  rw [denorm_fin_one] at this
  have := denorm_le_255 (fin q)
  omega

theorem denorm_mono (x y : FloatVal) (h : FloatVal.le x y = true) : denorm x ≤ denorm y := by
  cases x with
  | nan => simp [FloatVal.le] at h
  | negInf => rw [denorm_negInf]; exact Nat.zero_le _
  | posInf =>
    cases y with
    | posInf => exact le_rfl
    | nan => simp [FloatVal.le] at h
    | negInf => simp [FloatVal.le] at h
    | fin b => simp [FloatVal.le] at h
  | fin a =>
    cases y with
    | posInf => rw [denorm_posInf]; exact denorm_le_255 _
    | nan => simp [FloatVal.le] at h
    | negInf => simp [FloatVal.le] at h
    | fin b =>
      simp only [FloatVal.le, decide_eq_true_eq] at h
      exact denorm_fin_mono h

/-! ## Rounding error -/

theorem roundHalfEven_err (m : ℚ) : |(roundHalfEven m : ℚ) - m| ≤ 1/2 := by
  have h1 : (⌊m⌋ : ℚ) ≤ m := Int.floor_le m
  have h2 : m < ⌊m⌋ + 1 := Int.lt_floor_add_one m
  unfold roundHalfEven
  simp only
  rw [abs_le]
  split_ifs with a b c <;> push_cast <;> constructor <;> linarith

/-- Relative error of one rounding: at most `2^(-p)` times any bound on the magnitude. -/
theorem roundToPrec_err (p : ℕ) (q B : ℚ) (hB : |q| ≤ B) :
    |roundToPrec p q - q| ≤ B * 2 ^ (-(p : ℤ)) := by
  by_cases hq : q = 0
  · subst hq
    rw [roundToPrec_zero, sub_zero, abs_zero]
    exact mul_nonneg (le_trans (abs_nonneg _) hB) (zpow_pos (by norm_num) _).le
  · have hpos : 0 < |q| := abs_pos.mpr hq
    have hu : (0 : ℚ) < 2 ^ (Int.log 2 |q| - p + 1) := zpow_pos (by norm_num) _
    have hlo : (2 : ℚ) ^ (Int.log 2 |q|) ≤ |q| := Int.zpow_log_le_self (by norm_num) hpos
    rw [roundToPrec_eq p hq]
    have e1 : (roundHalfEven (q / 2 ^ (Int.log 2 |q| - p + 1)) : ℚ) * 2 ^ (Int.log 2 |q| - p + 1)
        - q = ((roundHalfEven (q / 2 ^ (Int.log 2 |q| - p + 1)) : ℚ)
          - q / 2 ^ (Int.log 2 |q| - p + 1)) * 2 ^ (Int.log 2 |q| - p + 1) := by
      field_simp
    rw [e1, abs_mul, abs_of_pos hu]
    have e2 : (2 : ℚ) ^ (Int.log 2 |q| - p + 1) = 2 * (2 ^ (Int.log 2 |q|) * 2 ^ (-(p : ℤ))) := by
      rw [← zpow_add₀ (by norm_num : (2 : ℚ) ≠ 0), ← zpow_one_add₀ (by norm_num : (2 : ℚ) ≠ 0)]
      congr 1
      omega
    have hp : (0 : ℚ) < 2 ^ (-(p : ℤ)) := zpow_pos (by norm_num) _
    calc |(roundHalfEven (q / 2 ^ (Int.log 2 |q| - p + 1)) : ℚ)
            - q / 2 ^ (Int.log 2 |q| - p + 1)| * 2 ^ (Int.log 2 |q| - p + 1)
        ≤ 1/2 * 2 ^ (Int.log 2 |q| - p + 1) :=
          mul_le_mul_of_nonneg_right (roundHalfEven_err _) hu.le
      _ = 2 ^ (Int.log 2 |q|) * 2 ^ (-(p : ℤ)) := by rw [e2]; ring
      _ ≤ |q| * 2 ^ (-(p : ℤ)) := mul_le_mul_of_nonneg_right hlo hp.le
      _ ≤ B * 2 ^ (-(p : ℤ)) := mul_le_mul_of_nonneg_right hB hp.le

theorem roundToPrec_53_err (q B : ℚ) (hB : |q| ≤ B) :
    |roundToPrec 53 q - q| ≤ B * (1 / 9007199254740992) := by
  have := roundToPrec_err 53 q B hB
  norm_num at this ⊢
  linarith

theorem roundToPrec_24_err (q B : ℚ) (hB : |q| ≤ B) :
    |roundToPrec 24 q - q| ≤ B * (1 / 16777216) := by
  have := roundToPrec_err 24 q B hB
  norm_num at this ⊢
  linarith

/-! ## The round trip `denorm ∘ normalize` -/

theorem normalize_eq (v : ℕ) :
    normalize v = fin (roundToPrec 24 (roundToPrec 53
      (roundToPrec 53 (roundToPrec 53 ((v : ℚ) / 255) - 1/2) / (1/2)))) := by
  simp [normalize, divC, subC, FloatVal.round]

/-- The stored tensor value is within `2^(-23) + 6 * 2^(-53)` of `2 v / 255 - 1`. -/
theorem normalize_close (x : ℚ) (h0 : 0 ≤ x) (h1 : x ≤ 1) :
    |roundToPrec 24 (roundToPrec 53 (roundToPrec 53 (roundToPrec 53 x - 1/2) / (1/2)))
      - (2 * x - 1)| ≤ 2 * (1 / 16777216) + 6 * (1 / 9007199254740992) := by
  have ha := roundToPrec_53_err x 1 (by rw [abs_le]; constructor <;> linarith)
  set a := roundToPrec 53 x
  rw [abs_le] at ha
  have hb := roundToPrec_53_err (a - 1/2) 1 (by rw [abs_le]; constructor <;> linarith)
  set b := roundToPrec 53 (a - 1/2)
  rw [abs_le] at hb
  have hc := roundToPrec_53_err (b / (1/2)) 2 (by rw [abs_le]; constructor <;> linarith)
  set c := roundToPrec 53 (b / (1/2))
  rw [abs_le] at hc
  have hd := roundToPrec_24_err c 2 (by rw [abs_le]; constructor <;> linarith)
  set d := roundToPrec 24 c
  rw [abs_le] at hd
  rw [abs_le]
  constructor <;> linarith

/-- The `float` handed to the cast is within `255 * (4 * 2^(-24) + 6 * 2^(-53))` of the pixel
value when the tensor value is within `2^(-23) + 6 * 2^(-53)` of its normalization. -/
theorem denormFloat_close (x d : ℚ) (h0 : 0 ≤ x) (h1 : x ≤ 1)
    (hd : |d - (2 * x - 1)| ≤ 2 * (1 / 16777216) + 6 * (1 / 9007199254740992)) :
    |roundToPrec 24
        (min 1 (max 0 (roundToPrec 24 (roundToPrec 53 (roundToPrec 53 (d * (1/2)) + 1/2))))
          * 255) - 255 * x| ≤ 1 / 8192 := by
  rw [abs_le] at hd
  have he := roundToPrec_53_err (d * (1/2)) 1 (by rw [abs_le]; constructor <;> linarith)
  set e := roundToPrec 53 (d * (1/2))
  rw [abs_le] at he
  have hf := roundToPrec_53_err (e + 1/2) 2 (by rw [abs_le]; constructor <;> linarith)
  set f := roundToPrec 53 (e + 1/2)
  rw [abs_le] at hf
  have hg := roundToPrec_24_err f 2 (by rw [abs_le]; constructor <;> linarith)
  set g := roundToPrec 24 f
  rw [abs_le] at hg
  have hk1 : min 1 (max 0 g) ≤ x + (3 * (1 / 16777216) + 6 * (1 / 9007199254740992)) := by
    rcases le_total g 0 with hg0 | hg0
    · rw [max_eq_left hg0, min_eq_right zero_le_one]; linarith
    · rw [max_eq_right hg0]
      exact le_trans (min_le_right _ _) (by linarith)
  have hk2 : x - (3 * (1 / 16777216) + 6 * (1 / 9007199254740992)) ≤ min 1 (max 0 g) := by
    apply le_min
    · linarith
    · exact le_trans (by linarith) (le_max_right _ _)
  have hk0 : 0 ≤ min 1 (max 0 g) := le_min zero_le_one (le_max_left _ _)
  have hk3 : min 1 (max 0 g) ≤ 1 := min_le_left _ _
  have hh := roundToPrec_24_err (min 1 (max 0 g) * 255) 255
    (by rw [abs_le]; constructor <;> linarith)
  rw [abs_le] at hh
  rw [abs_le]
  constructor <;> linarith

/-- The byte after the round trip is `v - 1` or `v`. -/
theorem roundtrip_floor (v : ℕ) (hv : v ≤ 255) :
    v ≤ denorm (normalize v) + 1 ∧ denorm (normalize v) ≤ v := by
  have hx0 : (0 : ℚ) ≤ (v : ℚ) / 255 := by positivity
  have hx1 : (v : ℚ) / 255 ≤ 1 := by
    rw [div_le_one (by norm_num)]
    exact_mod_cast hv
  have hn := normalize_close _ hx0 hx1
  have hd := denormFloat_close _ _ hx0 hx1 hn
  rw [show 255 * ((v : ℚ) / 255) = v by field_simp, abs_le] at hd
  rw [denorm, normalize_eq, denormFloat_fin, castU8]
  set h := roundToPrec 24 (min 1 (max 0 (roundToPrec 24 (roundToPrec 53 (roundToPrec 53
    (roundToPrec 24 (roundToPrec 53 (roundToPrec 53 (roundToPrec 53 ((v : ℚ) / 255) - 1/2)
      / (1/2))) * (1/2)) + 1/2)))) * 255)
  have hlo : ((v : ℤ) - 1 : ℤ) ≤ ⌊h⌋ := by
    rw [Int.le_floor]
    push_cast
    linarith
  have hhi : ⌊h⌋ ≤ (v : ℤ) := by
    have : ⌊h⌋ < (v : ℤ) + 1 := by
      rw [Int.floor_lt]
      push_cast
      linarith
    omega
  omega

/-! ## Loops as lists -/

/-- Two nested counting loops enumerate the product range in row-major order. -/
theorem range_flatMap_map {α : Type} (n s : ℕ) (F : ℕ → ℕ → α) :
    (List.range n).flatMap (fun i => (List.range s).map (F i)) =
      (List.range (n * s)).map (fun j => F (j / s) (j % s)) := by
  induction n with
  | zero => simp
  | succ n ih =>
    rw [List.range_succ, List.flatMap_append, ih, Nat.succ_mul, List.range_add,
      List.map_append]
    congr 1
    simp only [List.flatMap_cons, List.flatMap_nil, List.append_nil, List.map_map]
    apply List.map_congr_left
    intro k hk
    have hk' : k < s := List.mem_range.mp hk
    have hs : 0 < s := by omega
    simp only [Function.comp]
    rw [Nat.mul_comm n s, Nat.mul_add_div hs, Nat.div_eq_of_lt hk', Nat.add_zero,
      Nat.mul_add_mod, Nat.mod_eq_of_lt hk']

/-- Storing `v j` at every offset `j < N` in increasing order. -/
theorem applyStores_range (buf : Buf) (N : ℕ) (v : ℕ → FloatVal) (k : ℕ) :
    applyStores buf ((List.range N).map (fun j => (j, v j))) k =
      if k < N then v k else buf k := by
  induction N with
  | zero => simp [applyStores]
  | succ N ih =>
    unfold applyStores at ih ⊢
    rw [List.range_succ, List.map_append, List.foldl_append]
    simp only [List.map_cons, List.map_nil, List.foldl_cons, List.foldl_nil]
    by_cases hk : k = N
    · subst hk
      simp
    · rw [Function.update_noteq hk, ih]
      by_cases h1 : k < N
      · simp [h1, Nat.lt_succ_of_lt h1]
      · have h2 : ¬ k < N + 1 := by omega
        simp [h1, h2]

theorem imageStores_eq (cfg : Config) (b : ℕ) (img : Mat) :
    imageStores cfg b img =
      (List.range cfg.slotSize).map (fun k => (b * cfg.slotSize + k, slotValue cfg img k)) := by
  unfold imageStores Config.slotSize
  have inner : ∀ c, ((List.range cfg.INPUT_H).flatMap fun h =>
      (List.range cfg.INPUT_W).map fun w =>
        (blobIndex cfg b c h w, normalize (img.atVec3b h w c))) =
      (List.range (cfg.INPUT_H * cfg.INPUT_W)).map (fun j =>
        (blobIndex cfg b c (j / cfg.INPUT_W) (j % cfg.INPUT_W),
          normalize (img.atVec3b (j / cfg.INPUT_W) (j % cfg.INPUT_W) c))) := fun c =>
    range_flatMap_map cfg.INPUT_H cfg.INPUT_W
      (fun h w => (blobIndex cfg b c h w, normalize (img.atVec3b h w c)))
  simp only [inner]
  rw [range_flatMap_map 3 (cfg.INPUT_H * cfg.INPUT_W)
    (fun c j => (blobIndex cfg b c (j / cfg.INPUT_W) (j % cfg.INPUT_W),
      normalize (img.atVec3b (j / cfg.INPUT_W) (j % cfg.INPUT_W) c)))]
  apply List.map_congr_left
  intro k _
  simp only [slotValue, blobIndex, Prod.mk.injEq, and_true]
  have h1 := Nat.div_add_mod k (cfg.INPUT_H * cfg.INPUT_W)
  have h2 := Nat.div_add_mod (k % (cfg.INPUT_H * cfg.INPUT_W)) cfg.INPUT_W
  set m := k % (cfg.INPUT_H * cfg.INPUT_W)
  set c := k / (cfg.INPUT_H * cfg.INPUT_W)
  have e1 : b * 3 * cfg.INPUT_W * cfg.INPUT_H = b * (3 * (cfg.INPUT_H * cfg.INPUT_W)) := by ring
  have e2 : c * cfg.INPUT_W * cfg.INPUT_H = cfg.INPUT_H * cfg.INPUT_W * c := by ring
  have e3 : m / cfg.INPUT_W * cfg.INPUT_W = cfg.INPUT_W * (m / cfg.INPUT_W) := by ring
  rw [e1, e2, e3]
  omega

theorem blobStores_eq (cfg : Config) (imgs : List Mat) (n : ℕ) (hn : n ≤ imgs.length) :
    blobStores cfg imgs n =
      some ((List.range (n * cfg.slotSize)).map (fun j => (j, blobValue cfg imgs j))) := by
  induction n with
  | zero => simp [blobStores]
  | succ n ih =>
    have hlt : n < imgs.length := hn
    rw [blobStores, ih (Nat.le_of_lt hlt), List.getElem?_eq_getElem hlt]
    simp only [Option.some.injEq]
    rw [Nat.succ_mul, List.range_add, List.map_append, imageStores_eq]
    congr 1
    rw [List.map_map]
    apply List.map_congr_left
    intro k hk
    have hk' : k < cfg.slotSize := List.mem_range.mp hk
    have hs : 0 < cfg.slotSize := by omega
    simp only [Function.comp, blobValue]
    rw [Nat.mul_comm n cfg.slotSize, Nat.mul_add_div hs, Nat.div_eq_of_lt hk', Nat.add_zero,
      Nat.mul_add_mod, Nat.mod_eq_of_lt hk', List.getD_eq_getElem _ _ hlt]

theorem blobStores_none (cfg : Config) (imgs : List Mat) (n : ℕ) (hn : imgs.length < n) :
    blobStores cfg imgs n = none := by
  induction n with
  | zero => omega
  | succ n ih =>
    rw [blobStores]
    by_cases h : imgs.length < n
    · rw [ih h]
    · have : imgs.length = n := by omega
      rw [List.getElem?_eq_none (by omega)]
      cases blobStores cfg imgs n <;> rfl

/-- The buffer after `blobFromImages`, for a vector of at least `BATCH_SIZE` images. -/
theorem blobFromImages_eq (cfg : Config) (imgs : List Mat) (buf : Buf)
    (hn : cfg.BATCH_SIZE ≤ imgs.length) :
    blobFromImages cfg imgs buf =
      some (fun k => if k < cfg.BATCH_SIZE * cfg.slotSize then blobValue cfg imgs k
        else buf k) := by
  unfold blobFromImages
  rw [blobStores_eq cfg imgs _ hn, Option.map_some']
  congr 1
  funext k
  exact applyStores_range buf _ _ k

/-! ## The post-processor loops -/

/-- An iteration index is recovered from the position it writes. -/
theorem pixelCoord_recompose (cfg : Config) (i : ℕ) :
    i = (pixelCoord cfg i).2.2 * (cfg.INPUT_W * cfg.INPUT_H) +
      (pixelCoord cfg i).2.1 * cfg.INPUT_W + (pixelCoord cfg i).1 := by
  simp only [pixelCoord]
  have h1 := Nat.div_add_mod i cfg.INPUT_W
  have h2 := Nat.div_add_mod (i / cfg.INPUT_W) cfg.INPUT_H
  rw [Nat.div_div_eq_div_mul] at h2
  set c := i / (cfg.INPUT_W * cfg.INPUT_H)
  set q := i / cfg.INPUT_W
  have e1 : c * (cfg.INPUT_W * cfg.INPUT_H) = cfg.INPUT_W * (cfg.INPUT_H * c) := by ring
  have e2 : q % cfg.INPUT_H * cfg.INPUT_W = cfg.INPUT_W * (q % cfg.INPUT_H) := by ring
  rw [e1, e2, ← Nat.mul_add, h2, h1]

theorem pixelCoord_bounds (cfg : Config) (i : ℕ)
    (hi : i < cfg.INPUT_H * cfg.INPUT_W * 3) :
    (pixelCoord cfg i).1 < cfg.INPUT_W ∧ (pixelCoord cfg i).2.1 < cfg.INPUT_H ∧
      (pixelCoord cfg i).2.2 < 3 := by
  have hW : 0 < cfg.INPUT_W := by
    rcases Nat.eq_zero_or_pos cfg.INPUT_W with h | h
    · rw [h] at hi; simp at hi
    · exact h
  have hH : 0 < cfg.INPUT_H := by
    rcases Nat.eq_zero_or_pos cfg.INPUT_H with h | h
    · rw [h] at hi; simp at hi
    · exact h
  refine ⟨Nat.mod_lt _ hW, Nat.mod_lt _ hH, ?_⟩
  simp only [pixelCoord]
  rw [Nat.div_lt_iff_lt_mul (Nat.mul_pos hW hH)]
  calc i < cfg.INPUT_H * cfg.INPUT_W * 3 := hi
    _ = 3 * (cfg.INPUT_W * cfg.INPUT_H) := by ring

theorem pixelCoord_of (cfg : Config) (c h w : ℕ) (hh : h < cfg.INPUT_H)
    (hw : w < cfg.INPUT_W) :
    pixelCoord cfg (c * (cfg.INPUT_W * cfg.INPUT_H) + h * cfg.INPUT_W + w) = (w, h, c) := by
  have hW : 0 < cfg.INPUT_W := by omega
  have hH : 0 < cfg.INPUT_H := by omega
  have e : c * (cfg.INPUT_W * cfg.INPUT_H) + h * cfg.INPUT_W + w =
      w + cfg.INPUT_W * (h + cfg.INPUT_H * c) := by ring
  have d1 : (w + cfg.INPUT_W * (h + cfg.INPUT_H * c)) / cfg.INPUT_W = h + cfg.INPUT_H * c := by
    rw [Nat.add_mul_div_left _ _ hW, Nat.div_eq_of_lt hw, Nat.zero_add]
  simp only [pixelCoord, e]
  refine Prod.ext ?_ (Prod.ext ?_ ?_)
  · simp [Nat.add_mul_mod_self_left, Nat.mod_eq_of_lt hw]
  · simp only [d1]
    simp [Nat.add_mul_mod_self_left, Nat.mod_eq_of_lt hh]
  · simp only []
    rw [← Nat.div_div_eq_div_mul, d1, Nat.add_mul_div_left _ _ hH, Nat.div_eq_of_lt hh,
      Nat.zero_add]

theorem pixelCoord_lt_of (cfg : Config) (c h w : ℕ) (hc : c < 3) (hh : h < cfg.INPUT_H)
    (hw : w < cfg.INPUT_W) :
    c * (cfg.INPUT_W * cfg.INPUT_H) + h * cfg.INPUT_W + w < cfg.INPUT_H * cfg.INPUT_W * 3 := by
  have h1 : h * cfg.INPUT_W + w < cfg.INPUT_W * cfg.INPUT_H := by
    calc h * cfg.INPUT_W + w < h * cfg.INPUT_W + cfg.INPUT_W := by omega
      _ = (h + 1) * cfg.INPUT_W := by ring
      _ ≤ cfg.INPUT_H * cfg.INPUT_W := Nat.mul_le_mul_right _ hh
      _ = cfg.INPUT_W * cfg.INPUT_H := by ring
  have h2 : c * (cfg.INPUT_W * cfg.INPUT_H) ≤ 2 * (cfg.INPUT_W * cfg.INPUT_H) :=
    Nat.mul_le_mul_right _ (by omega)
  have h3 : cfg.INPUT_H * cfg.INPUT_W * 3 = 3 * (cfg.INPUT_W * cfg.INPUT_H) := by ring
  omega

/-- Stores at pairwise distinct offsets: each offset holds the value stored there. -/
theorem foldl_update_inj {β : Type} (n : ℕ) (key : ℕ → ℕ) (val : ℕ → β) (init : ℕ → β)
    (hinj : ∀ i j, i < n → j < n → key i = key j → i = j) (j : ℕ) (hj : j < n) :
    ((List.range n).foldl (fun d i => Function.update d (key i) (val i)) init) (key j)
      = val j := by
  induction n with
  | zero => omega
  | succ n ih =>
    rw [List.range_succ, List.foldl_append]
    simp only [List.foldl_cons, List.foldl_nil]
    by_cases hjn : j = n
    · subst hjn
      simp
    · have hne : key j ≠ key n := fun h => hjn (hinj j n hj (Nat.lt_succ_self n) h)
      rw [Function.update_noteq hne]
      exact ih (fun a b ha hb => hinj a b (Nat.lt_succ_of_lt ha) (Nat.lt_succ_of_lt hb))
        (by omega)

theorem foldl_setVec3b (n : ℕ) (co : ℕ → ℕ × ℕ × ℕ) (val : ℕ → ℕ) (img : Mat) :
    (List.range n).foldl (fun m i => m.setVec3b (co i).2.1 (co i).1 (co i).2.2 (val i)) img =
      ⟨img.rows, img.cols, (List.range n).foldl (fun d i =>
        Function.update d (((co i).2.1 * img.cols + (co i).1) * 3 + (co i).2.2) (val i))
        img.data⟩ := by
  induction n with
  | zero => simp
  | succ n ih =>
    rw [List.range_succ, List.foldl_append, List.foldl_append, ih]
    simp [Mat.setVec3b]

/-- The image of one batch slot: its size, and each channel of each pixel as the byte of one
tensor element of the slot, whatever the fresh storage held. -/
theorem slotImage_spec (cfg : Config) (uninit : ℕ → ℕ) (output : Buf) (index : ℕ)
    (hC : cfg.CHANNELS = 3) :
    (slotImage cfg uninit output index).rows = cfg.INPUT_H ∧
    (slotImage cfg uninit output index).cols = cfg.INPUT_W ∧
    ∀ h w c, h < cfg.INPUT_H → w < cfg.INPUT_W → c < 3 →
      (slotImage cfg uninit output index).atVec3b h w c =
        denorm (output (index + ((2 - c) * (cfg.INPUT_W * cfg.INPUT_H) + h * cfg.INPUT_W + w)))
    := by
  unfold slotImage
  simp only [hC]
  rw [foldl_setVec3b (cfg.INPUT_H * cfg.INPUT_W * 3) (pixelCoord cfg)
    (fun i => denorm (output (index + i))) ⟨cfg.INPUT_H, cfg.INPUT_W, uninit⟩]
  refine ⟨rfl, rfl, ?_⟩
  intro h w c hh hw hc
  simp only [Mat.atVec3b, cvtColor]
  have hidx : ((h * cfg.INPUT_W + w) * 3 + c) / 3 * 3 + (2 - ((h * cfg.INPUT_W + w) * 3 + c) % 3)
      = (h * cfg.INPUT_W + w) * 3 + (2 - c) := by omega
  rw [hidx]
  have hlt := pixelCoord_lt_of cfg (2 - c) h w (by omega) hh hw
  have hco := pixelCoord_of cfg (2 - c) h w hh hw
  have key := foldl_update_inj (cfg.INPUT_H * cfg.INPUT_W * 3)
    (fun i => ((pixelCoord cfg i).2.1 * cfg.INPUT_W + (pixelCoord cfg i).1) * 3
      + (pixelCoord cfg i).2.2)
    (fun i => denorm (output (index + i))) uninit
    (by
      intro i j hi hj hij
      have bi := pixelCoord_bounds cfg i hi
      have bj := pixelCoord_bounds cfg j hj
      have ri := pixelCoord_recompose cfg i
      have rj := pixelCoord_recompose cfg j
      simp only at hij
      have e1 : (pixelCoord cfg i).2.2 = (pixelCoord cfg j).2.2 := by omega
      have e2 : (pixelCoord cfg i).2.1 * cfg.INPUT_W + (pixelCoord cfg i).1 =
          (pixelCoord cfg j).2.1 * cfg.INPUT_W + (pixelCoord cfg j).1 := by omega
      rw [ri, rj, e1, Nat.add_assoc, Nat.add_assoc, e2])
    ((2 - c) * (cfg.INPUT_W * cfg.INPUT_H) + h * cfg.INPUT_W + w) hlt
  simp only [hco] at key
  exact key

/-- The outer loop started at slot `k` with `n` slots left: `n + 1` tests of its condition
suffice and it appends the images of the slots `k, …, k + n - 1`. -/
theorem postLoop_eq (cfg : Config) (heap : ℕ → ℕ → ℕ) (output : Buf)
    (hstep : 0 < cfg.INPUT_H * cfg.INPUT_W * cfg.CHANNELS) (n : ℕ) :
    ∀ (fuel k : ℕ) (cvimgs : List Mat),
      cfg.OUTPUT_SIZE = (k + n) * (cfg.INPUT_H * cfg.INPUT_W * cfg.CHANNELS) → n < fuel →
      postLoop cfg heap output fuel (k * (cfg.INPUT_H * cfg.INPUT_W * cfg.CHANNELS)) cvimgs =
        some (cvimgs ++ (List.range n).map (fun j =>
          slotImage cfg (heap ((k + j) * (cfg.INPUT_H * cfg.INPUT_W * cfg.CHANNELS))) output
            ((k + j) * (cfg.INPUT_H * cfg.INPUT_W * cfg.CHANNELS)))) := by
  induction n with
  | zero =>
    intro fuel k cvimgs hsz hf
    obtain ⟨f, rfl⟩ : ∃ f, fuel = f + 1 := ⟨fuel - 1, by omega⟩
    rw [postLoop, if_neg (by rw [hsz]; simp)]
    simp
  | succ n ih =>
    intro fuel k cvimgs hsz hf
    obtain ⟨f, rfl⟩ : ∃ f, fuel = f + 1 := ⟨fuel - 1, by omega⟩
    have hlt : k * (cfg.INPUT_H * cfg.INPUT_W * cfg.CHANNELS) < cfg.OUTPUT_SIZE := by
      rw [hsz]
      exact Nat.mul_lt_mul_of_pos_right (by omega) hstep
    rw [postLoop, if_pos hlt]
    have e : k * (cfg.INPUT_H * cfg.INPUT_W * cfg.CHANNELS)
        + cfg.INPUT_H * cfg.INPUT_W * cfg.CHANNELS
        = (k + 1) * (cfg.INPUT_H * cfg.INPUT_W * cfg.CHANNELS) := by ring
    rw [e, ih f (k + 1) _ (by rw [hsz]; congr 1; omega) (by omega)]
    rw [List.range_succ_eq_map, List.map_cons, List.map_map, List.append_assoc]
    simp only [List.singleton_append, Nat.add_zero, Option.some.injEq, List.append_cancel_left_eq,
      List.cons.injEq, true_and]
    apply List.map_congr_left
    intro j _
    simp only [Function.comp, Nat.succ_eq_add_one]
    rw [show k + 1 + j = k + (j + 1) by omega]

/-! ## The tensor layout -/

theorem normalize_mono {p p' : ℕ} (h : p ≤ p') :
    ∃ a b : ℚ, normalize p = fin a ∧ normalize p' = fin b ∧ a ≤ b := by
  refine ⟨_, _, normalize_eq p, normalize_eq p', ?_⟩
  apply roundToPrec_mono 24 (by norm_num)
  apply roundToPrec_mono 53 (by norm_num)
  have h1 : ((p : ℚ) / 255) ≤ (p' : ℚ) / 255 := by
    apply div_le_div_of_nonneg_right _ (by norm_num)
    exact_mod_cast h
  have h2 := roundToPrec_mono 53 (by norm_num) h1
  have h3 : roundToPrec 53 (roundToPrec 53 ((p : ℚ) / 255) - 1/2)
      ≤ roundToPrec 53 (roundToPrec 53 ((p' : ℚ) / 255) - 1/2) :=
    roundToPrec_mono 53 (by norm_num) (by linarith)
  linarith

theorem normalize_zero : normalize 0 = fin (-1) := by decide!

theorem normalize_255 : normalize 255 = fin 1 := by decide!

/-- An 8-bit pixel is stored as a value in `[-1, 1]`. -/
theorem normalize_range (p : ℕ) (hp : p ≤ 255) :
    FloatVal.le (fin (-1)) (normalize p) = true ∧ FloatVal.le (normalize p) (fin 1) = true := by
  obtain ⟨a, b, ha, hb, hab⟩ := normalize_mono (Nat.zero_le p)
  obtain ⟨c, d, hc, hd, hcd⟩ := normalize_mono hp
  rw [normalize_zero] at ha
  rw [normalize_255] at hd
  rw [hb] at hc
  cases ha
  cases hd
  cases hc
  rw [hb]
  simp only [FloatVal.le, decide_eq_true_eq]
  exact ⟨hab, hcd⟩

theorem slotValue_of (cfg : Config) (img : Mat) (c h w : ℕ) (hh : h < cfg.INPUT_H)
    (hw : w < cfg.INPUT_W) :
    slotValue cfg img (c * (cfg.INPUT_W * cfg.INPUT_H) + h * cfg.INPUT_W + w) =
      normalize (img.atVec3b h w c) := by
  have hW : 0 < cfg.INPUT_W := by omega
  have hHW : 0 < cfg.INPUT_H * cfg.INPUT_W := Nat.mul_pos (by omega) hW
  have hlt : h * cfg.INPUT_W + w < cfg.INPUT_H * cfg.INPUT_W := by
    calc h * cfg.INPUT_W + w < h * cfg.INPUT_W + cfg.INPUT_W := by omega
      _ = (h + 1) * cfg.INPUT_W := by ring
      _ ≤ cfg.INPUT_H * cfg.INPUT_W := Nat.mul_le_mul_right _ hh
  have e : c * (cfg.INPUT_W * cfg.INPUT_H) + h * cfg.INPUT_W + w =
      (h * cfg.INPUT_W + w) + cfg.INPUT_H * cfg.INPUT_W * c := by ring
  have m1 : ((h * cfg.INPUT_W + w) + cfg.INPUT_H * cfg.INPUT_W * c) % (cfg.INPUT_H * cfg.INPUT_W)
      = h * cfg.INPUT_W + w := by
    rw [Nat.add_mul_mod_self_left, Nat.mod_eq_of_lt hlt]
  have d1 : ((h * cfg.INPUT_W + w) + cfg.INPUT_H * cfg.INPUT_W * c) / (cfg.INPUT_H * cfg.INPUT_W)
      = c := by
    rw [Nat.add_mul_div_left _ _ hHW, Nat.div_eq_of_lt hlt, Nat.zero_add]
  have d2 : (h * cfg.INPUT_W + w) / cfg.INPUT_W = h := by
    rw [Nat.add_comm, Nat.add_mul_div_right _ _ hW, Nat.div_eq_of_lt hw, Nat.zero_add]
  have m2 : (h * cfg.INPUT_W + w) % cfg.INPUT_W = w := by
    rw [Nat.add_comm, Nat.add_mul_mod_self_right, Nat.mod_eq_of_lt hw]
  unfold slotValue
  rw [e, m1, d1, d2, m2]

theorem slot_offset_lt (cfg : Config) (c h w : ℕ) (hc : c < 3) (hh : h < cfg.INPUT_H)
    (hw : w < cfg.INPUT_W) :
    c * (cfg.INPUT_W * cfg.INPUT_H) + h * cfg.INPUT_W + w < cfg.slotSize := by
  have := pixelCoord_lt_of cfg c h w hc hh hw
  unfold Config.slotSize
  calc c * (cfg.INPUT_W * cfg.INPUT_H) + h * cfg.INPUT_W + w
      < cfg.INPUT_H * cfg.INPUT_W * 3 := this
    _ = 3 * (cfg.INPUT_H * cfg.INPUT_W) := by ring

theorem blobIndex_eq (cfg : Config) (b c h w : ℕ) :
    blobIndex cfg b c h w =
      b * cfg.slotSize + (c * (cfg.INPUT_W * cfg.INPUT_H) + h * cfg.INPUT_W + w) := by
  unfold blobIndex Config.slotSize
  ring

/-- The value `blobFromImages` stores at the offset of `(b, c, h, w)`. -/
theorem blobValue_at (cfg : Config) (imgs : List Mat) (b c h w : ℕ)
    (hb : b < imgs.length) (hc : c < 3) (hh : h < cfg.INPUT_H) (hw : w < cfg.INPUT_W) :
    blobValue cfg imgs (blobIndex cfg b c h w) =
      normalize ((imgs.get ⟨b, hb⟩).atVec3b h w c) := by
  have hk := slot_offset_lt cfg c h w hc hh hw
  have hs : 0 < cfg.slotSize := by omega
  unfold blobValue
  rw [blobIndex_eq, Nat.mul_comm b cfg.slotSize, Nat.mul_add_div hs, Nat.div_eq_of_lt hk,
    Nat.add_zero, Nat.mul_add_mod, Nat.mod_eq_of_lt hk, List.getD_eq_getElem _ _ hb,
    slotValue_of cfg _ c h w hh hw]
  rfl

theorem blobIndex_lt (cfg : Config) (b c h w : ℕ) (hb : b < cfg.BATCH_SIZE) (hc : c < 3)
    (hh : h < cfg.INPUT_H) (hw : w < cfg.INPUT_W) :
    blobIndex cfg b c h w < cfg.BATCH_SIZE * cfg.slotSize := by
  have hk := slot_offset_lt cfg c h w hc hh hw
  rw [blobIndex_eq]
  calc b * cfg.slotSize + (c * (cfg.INPUT_W * cfg.INPUT_H) + h * cfg.INPUT_W + w)
      < b * cfg.slotSize + cfg.slotSize := by omega
    _ = (b + 1) * cfg.slotSize := by ring
    _ ≤ cfg.BATCH_SIZE * cfg.slotSize := Nat.mul_le_mul_right _ hb

theorem blobIndex_inj (cfg : Config) (b c h w b' c' h' w' : ℕ)
    (hc : c < 3) (hh : h < cfg.INPUT_H) (hw : w < cfg.INPUT_W)
    (hc' : c' < 3) (hh' : h' < cfg.INPUT_H) (hw' : w' < cfg.INPUT_W)
    (heq : blobIndex cfg b c h w = blobIndex cfg b' c' h' w') :
    b = b' ∧ c = c' ∧ h = h' ∧ w = w' := by
  have hk := slot_offset_lt cfg c h w hc hh hw
  have hk' := slot_offset_lt cfg c' h' w' hc' hh' hw'
  have hs : 0 < cfg.slotSize := by omega
  rw [blobIndex_eq, blobIndex_eq] at heq
  have hdiv := congrArg (· / cfg.slotSize) heq
  have hmod := congrArg (· % cfg.slotSize) heq
  simp only [Nat.mul_comm _ cfg.slotSize, Nat.mul_add_div hs, Nat.div_eq_of_lt hk,
    Nat.div_eq_of_lt hk', Nat.add_zero, Nat.mul_add_mod, Nat.mod_eq_of_lt hk,
    Nat.mod_eq_of_lt hk'] at hdiv hmod
  have hco := congrArg (pixelCoord cfg) hmod
  rw [pixelCoord_of cfg c h w hh hw, pixelCoord_of cfg c' h' w' hh' hw'] at hco
  simp only [Prod.mk.injEq] at hco
  exact ⟨hdiv, hco.2.2, hco.2.1, hco.1⟩

theorem blobIndex_surj (cfg : Config) (j : ℕ) (hj : j < cfg.BATCH_SIZE * cfg.slotSize) :
    ∃ b c h w, b < cfg.BATCH_SIZE ∧ c < 3 ∧ h < cfg.INPUT_H ∧ w < cfg.INPUT_W ∧
      blobIndex cfg b c h w = j := by
  have hs : 0 < cfg.slotSize := by
    rcases Nat.eq_zero_or_pos cfg.slotSize with h | h
    · rw [h] at hj; simp at hj
    · exact h
  have hk : j % cfg.slotSize < cfg.INPUT_H * cfg.INPUT_W * 3 := by
    have := Nat.mod_lt j hs
    unfold Config.slotSize at this ⊢
    omega
  obtain ⟨bw, bh, bc⟩ := pixelCoord_bounds cfg (j % cfg.slotSize) hk
  refine ⟨j / cfg.slotSize, (pixelCoord cfg (j % cfg.slotSize)).2.2,
    (pixelCoord cfg (j % cfg.slotSize)).2.1, (pixelCoord cfg (j % cfg.slotSize)).1,
    ?_, bc, bh, bw, ?_⟩
  · rw [Nat.div_lt_iff_lt_mul hs]; exact hj
  · rw [blobIndex_eq, ← pixelCoord_recompose cfg (j % cfg.slotSize), Nat.mul_comm]
    exact Nat.div_add_mod j cfg.slotSize

/-! ## Post-processing a whole tensor -/

/-- With enough fuel the outer loop returns one image per batch slot, in slot order. -/
theorem postLoop_all (cfg : Config) (heap : ℕ → ℕ → ℕ) (output : Buf) (cvimgs : List Mat)
    (hC : cfg.CHANNELS = 3)
    (hO : cfg.OUTPUT_SIZE = cfg.BATCH_SIZE * cfg.CHANNELS * cfg.INPUT_H * cfg.INPUT_W)
    (hH : 0 < cfg.INPUT_H) (hW : 0 < cfg.INPUT_W) (fuel : ℕ) (hf : cfg.BATCH_SIZE < fuel) :
    postLoop cfg heap output fuel 0 cvimgs =
      some (cvimgs ++ (List.range cfg.BATCH_SIZE).map (fun j =>
        slotImage cfg (heap (j * (cfg.INPUT_H * cfg.INPUT_W * cfg.CHANNELS))) output
          (j * (cfg.INPUT_H * cfg.INPUT_W * cfg.CHANNELS)))) := by
  have hstep : 0 < cfg.INPUT_H * cfg.INPUT_W * cfg.CHANNELS := by
    rw [hC]; exact Nat.mul_pos (Nat.mul_pos hH hW) (by norm_num)
  have hO' : cfg.OUTPUT_SIZE
      = (0 + cfg.BATCH_SIZE) * (cfg.INPUT_H * cfg.INPUT_W * cfg.CHANNELS) := by
    rw [hO]; ring
  have p := postLoop_eq cfg heap output hstep cfg.BATCH_SIZE fuel 0 cvimgs hO' hf
  simp only [Nat.zero_mul, Nat.zero_add] at p
  exact p

theorem batch_lt_fuel (cfg : Config) (hC : cfg.CHANNELS = 3)
    (hO : cfg.OUTPUT_SIZE = cfg.BATCH_SIZE * cfg.CHANNELS * cfg.INPUT_H * cfg.INPUT_W)
    (hH : 0 < cfg.INPUT_H) (hW : 0 < cfg.INPUT_W) : cfg.BATCH_SIZE < cfg.OUTPUT_SIZE + 1 := by
  have hstep : 0 < cfg.CHANNELS * cfg.INPUT_H * cfg.INPUT_W := by
    rw [hC]; exact Nat.mul_pos (Nat.mul_pos (by norm_num) hH) hW
  have : cfg.OUTPUT_SIZE = cfg.BATCH_SIZE * (cfg.CHANNELS * cfg.INPUT_H * cfg.INPUT_W) := by
    rw [hO]; ring
  have := Nat.le_mul_of_pos_right cfg.BATCH_SIZE hstep
  omega

/-- The function `imagesPostProcess` returns one image per batch slot, in slot order. -/
theorem imagesPostProcess_eq (cfg : Config) (heap : ℕ → ℕ → ℕ) (output : Buf)
    (cvimgs : List Mat) (hC : cfg.CHANNELS = 3)
    (hO : cfg.OUTPUT_SIZE = cfg.BATCH_SIZE * cfg.CHANNELS * cfg.INPUT_H * cfg.INPUT_W)
    (hH : 0 < cfg.INPUT_H) (hW : 0 < cfg.INPUT_W) :
    imagesPostProcess cfg heap output cvimgs =
      some (cvimgs ++ (List.range cfg.BATCH_SIZE).map (fun j =>
        slotImage cfg (heap (j * (cfg.INPUT_H * cfg.INPUT_W * cfg.CHANNELS))) output
          (j * (cfg.INPUT_H * cfg.INPUT_W * cfg.CHANNELS)))) :=
  postLoop_all cfg heap output cvimgs hC hO hH hW _ (batch_lt_fuel cfg hC hO hH hW)

/-- Channel `k` of pixel `(h, w)` of the image of slot `b`, when the tensor is the one
`blobFromImages` wrote for the vector `pre`: the round trip of channel `2 - k` of `pre[b]`. -/
theorem slotImage_of_blob (cfg : Config) (pre : List Mat) (buf : Buf) (uninit : ℕ → ℕ)
    (hC : cfg.CHANNELS = 3) (b h w k : ℕ) (hb : b < cfg.BATCH_SIZE) (hb' : b < pre.length)
    (hh : h < cfg.INPUT_H) (hw : w < cfg.INPUT_W) (hk : k < 3) :
    (slotImage cfg uninit
        (fun j => if j < cfg.BATCH_SIZE * cfg.slotSize then blobValue cfg pre j else buf j)
        (b * (cfg.INPUT_H * cfg.INPUT_W * cfg.CHANNELS))).atVec3b h w k =
      denorm (normalize ((pre.get ⟨b, hb'⟩).atVec3b h w (2 - k))) := by
  rw [(slotImage_spec cfg _ _ _ hC).2.2 h w k hh hw hk]
  have hidx : b * (cfg.INPUT_H * cfg.INPUT_W * cfg.CHANNELS)
      + ((2 - k) * (cfg.INPUT_W * cfg.INPUT_H) + h * cfg.INPUT_W + w)
      = blobIndex cfg b (2 - k) h w := by
    rw [blobIndex_eq, hC]
    unfold Config.slotSize
    ring
  rw [hidx]
  simp only [blobIndex_lt cfg b (2 - k) h w hb (by omega) hh hw, if_true]
  rw [blobValue_at cfg pre b (2 - k) h w hb' (by omega) hh hw]

/-- Colour conversion reads channel `2 - c`. -/
theorem cvtColor_atVec3b (m : Mat) (h w c : ℕ) (hc : c < 3) :
    (cvtColor m).atVec3b h w c = m.atVec3b h w (2 - c) := by
  simp only [Mat.atVec3b, cvtColor]
  congr 1
  omega

/-! ## The inference invoker and the entry point -/

/-- The calls `doInference` wraps in `CHECK`. -/
theorem doInferenceRun_aborted_iff (rt : Runtime) :
    (doInferenceRun rt).aborted = true ↔
      (rt.status .cudaMallocInput ≠ 0 ∨ rt.status .cudaMallocOutput ≠ 0 ∨
        rt.status .cudaStreamCreate ≠ 0 ∨ rt.status .cudaMemcpyAsyncHostToDevice ≠ 0 ∨
        rt.status .cudaMemcpyAsyncDeviceToHost ≠ 0 ∨ rt.status .cudaFreeInput ≠ 0 ∨
        rt.status .cudaFreeOutput ≠ 0) := by
  unfold doInferenceRun CHECK unchecked
  by_cases h1 : rt.status .cudaMallocInput = 0 <;>
  by_cases h2 : rt.status .cudaMallocOutput = 0 <;>
  by_cases h3 : rt.status .cudaStreamCreate = 0 <;>
  by_cases h4 : rt.status .cudaMemcpyAsyncHostToDevice = 0 <;>
  by_cases h5 : rt.status .cudaMemcpyAsyncDeviceToHost = 0 <;>
  by_cases h6 : rt.status .cudaFreeInput = 0 <;>
  by_cases h7 : rt.status .cudaFreeOutput = 0 <;>
  simp [h1, h2, h3, h4, h5, h6, h7]

/-- The images `infer` hands to `blobFromImages`. -/
theorem infer_eq (cfg : Config) (resize : ℕ → ℕ → Mat → Mat) (rt : Runtime) (heap : Heap)
    (st : Buffers) (n rows cols ch : ℕ) (data : ℕ → ℕ)
    (hn : cfg.BATCH_SIZE ≤ n) (hrt : (doInferenceRun rt).aborted = false)
    (hC : cfg.CHANNELS = 3)
    (hO : cfg.OUTPUT_SIZE = cfg.BATCH_SIZE * cfg.CHANNELS * cfg.INPUT_H * cfg.INPUT_W)
    (hH : 0 < cfg.INPUT_H) (hW : 0 < cfg.INPUT_W) :
    infer cfg resize rt heap st ⟨[n, rows, cols, ch], data⟩ =
      some (⟨3, [n, rows, cols, 3], [n * cols * 3, cols * 3, 3, 1], heap.reshaped⟩,
        ⟨fun k => if k < cfg.BATCH_SIZE * cfg.slotSize then
            blobValue cfg ((List.range n).map fun index => imagePreProcess cfg resize
              ⟨rows, cols, fun j => data (index * rows * cols * ch + j)⟩) k
          else st.input k,
         rt.engine (fun k => if k < cfg.BATCH_SIZE * cfg.slotSize then
            blobValue cfg ((List.range n).map fun index => imagePreProcess cfg resize
              ⟨rows, cols, fun j => data (index * rows * cols * ch + j)⟩) k
          else st.input k)⟩) := by
  unfold infer
  simp only [List.getElem?_cons_zero, List.getElem?_cons_succ, Option.bind_eq_bind,
    Option.some_bind, Option.pure_def]
  rw [blobFromImages_eq cfg _ st.input (by rw [List.length_map, List.length_range]; exact hn)]
  simp only [Option.some_bind, doInference, hrt, Bool.false_eq_true, if_false]
  rw [imagesPostProcess_eq cfg heap.slot _ [] hC hO hH hW]
  simp

/-! ## Claims on the pixel maps -/

/-- C6. Post-processor pixel formula: for a finite tensor value `q` the byte that
`imagesPostProcess` stores is the truncation of `clamp(q * 0.5 + 0.5, 0, 1) * 255`, each
operation rounded as the code performs it; for every tensor value (NaN and the infinities
included) the operand of the conversion to `uint8_t` is in range and the byte is at most 255;
the byte is 0 for every value `<= -1`, 255 for every value `>= 1`, and it is monotonically
non-decreasing in the tensor value. -/
theorem denorm_formula_range_saturation_monotone :
    (∀ q : ℚ, denorm (fin q) =
      ⌊roundToPrec 24
        (min 1 (max 0 (roundToPrec 24 (roundToPrec 53 (roundToPrec 53 (q * (1/2)) + 1/2))))
          * 255)⌋.toNat) ∧
    (∀ x : FloatVal, castU8Defined (denormFloat x) ∧ denorm x ≤ 255) ∧
    (∀ x : FloatVal, FloatVal.le x (fin (-1)) = true → denorm x = 0) ∧
    (∀ x : FloatVal, FloatVal.le (fin 1) x = true → denorm x = 255) ∧
    (∀ x y : FloatVal, FloatVal.le x y = true → denorm x ≤ denorm y) := by
  refine ⟨fun q => ?_, fun x => ⟨?_, denorm_le_255 x⟩, fun x h => ?_, fun x h => ?_,
    denorm_mono⟩
  · simp only [denorm, denormFloat_fin, castU8]
  · obtain ⟨r, hr, h0, h1⟩ := denormFloat_range x
    rw [hr]
    exact ⟨by linarith, by linarith⟩
  · cases x with
    | nan => simp [FloatVal.le] at h
    | negInf => exact denorm_negInf
    | posInf => simp [FloatVal.le] at h
    | fin a =>
      simp only [FloatVal.le, decide_eq_true_eq] at h
      exact denorm_zero_of_le h
  · cases x with
    | nan => simp [FloatVal.le] at h
    | negInf => simp [FloatVal.le] at h
    | posInf => exact denorm_posInf
    | fin a =>
      simp only [FloatVal.le, decide_eq_true_eq] at h
      exact denorm_255_of_ge h

/-- Witness for C6 at the tensor values `-3`, `+inf` and the pair `1/4 <= 1/2`. -/
theorem denorm_formula_range_saturation_monotone_witness :
    (FloatVal.le (fin (-3)) (fin (-1)) = true ∧ denorm (fin (-3)) = 0) ∧
    (FloatVal.le (fin 1) posInf = true ∧ denorm posInf = 255) ∧
    (FloatVal.le (fin (1/4)) (fin (1/2)) = true ∧ denorm (fin (1/4)) ≤ denorm (fin (1/2))) :=
  ⟨⟨by decide!, denorm_formula_range_saturation_monotone.2.2.1 _ (by decide!)⟩,
    ⟨by decide!, denorm_formula_range_saturation_monotone.2.2.2.1 _ (by decide!)⟩,
    ⟨by decide!, denorm_formula_range_saturation_monotone.2.2.2.2 _ _ (by decide!)⟩⟩

/-- C2. Normalization invertibility: for every 8-bit value `v`, normalizing as
`blobFromImages` does and denormalizing as `imagesPostProcess` does gives a byte `r` with
`v - 1 <= r <= v + 1`; for `v = 128` the result is 127 or 128. -/
theorem normalize_denorm_within_one (v : ℕ) (hv : v ≤ 255) :
    v ≤ denorm (normalize v) + 1 ∧ denorm (normalize v) ≤ v + 1 ∧
      (denorm (normalize 128) = 127 ∨ denorm (normalize 128) = 128) := by
  have h := roundtrip_floor v hv
  have h128 := roundtrip_floor 128 (by norm_num)
  omega

/-- Witness for C2 at `v = 200`. -/
theorem normalize_denorm_within_one_witness :
    200 ≤ 255 ∧ (200 ≤ denorm (normalize 200) + 1 ∧ denorm (normalize 200) ≤ 200 + 1 ∧
      (denorm (normalize 128) = 127 ∨ denorm (normalize 128) = 128)) :=
  ⟨by decide, normalize_denorm_within_one 200 (by decide)⟩

/-! ## Claims on the pre-processor -/

/-- C5. Pre-processor tensor layout: for a batch of `BATCH_SIZE` images of size
`INPUT_H x INPUT_W` with 8-bit channels, `blobFromImages` returns, and for all `b < BATCH_SIZE`,
`c < 3`, `h < INPUT_H`, `w < INPUT_W` the element of the input buffer at the flat index
`b*3*INPUT_W*INPUT_H + c*INPUT_W*INPUT_H + h*INPUT_W + w` is `(p/255 - 0.5)/0.5`, computed in
`double` and stored as `float`, where `p` is channel `c` of pixel `(h, w)` of image `b`; that
value lies in `[-1, 1]`. -/
theorem blobFromImages_planar_layout (cfg : Config) (imgs : List Mat) (input : Buf)
    (hlen : imgs.length = cfg.BATCH_SIZE)
    (hsize : ∀ img ∈ imgs, img.rows = cfg.INPUT_H ∧ img.cols = cfg.INPUT_W)
    (hbyte : ∀ img ∈ imgs, ∀ j, img.data j ≤ 255) :
    ∃ out, blobFromImages cfg imgs input = some out ∧
      ∀ b c h w img, b < cfg.BATCH_SIZE → c < 3 → h < cfg.INPUT_H → w < cfg.INPUT_W →
        imgs[b]? = some img →
        out (b * 3 * cfg.INPUT_W * cfg.INPUT_H + c * cfg.INPUT_W * cfg.INPUT_H
            + h * cfg.INPUT_W + w) = normalize (img.atVec3b h w c) ∧
        normalize (img.atVec3b h w c) = fin (roundToPrec 24 (roundToPrec 53
          (roundToPrec 53 (roundToPrec 53 ((img.atVec3b h w c : ℚ) / 255) - 1/2) / (1/2)))) ∧
        FloatVal.le (fin (-1)) (normalize (img.atVec3b h w c)) = true ∧
        FloatVal.le (normalize (img.atVec3b h w c)) (fin 1) = true := by
  refine ⟨_, blobFromImages_eq cfg imgs input (le_of_eq hlen.symm), ?_⟩
  intro b c h w img hb hc hh hw himg
  have hb' : b < imgs.length := by omega
  have hget : imgs.get ⟨b, hb'⟩ = img := by
    rw [List.getElem?_eq_getElem hb'] at himg
    exact Option.some.inj himg
  have hmem : img ∈ imgs := hget ▸ List.get_mem imgs b hb'
  have _hs := hsize img hmem
  refine ⟨?_, normalize_eq _, normalize_range _ (hbyte img hmem _)⟩
  show (fun k => if k < cfg.BATCH_SIZE * cfg.slotSize then blobValue cfg imgs k else input k)
    (blobIndex cfg b c h w) = _
  simp only [blobIndex_lt cfg b c h w hb hc hh hw, if_true]
  rw [blobValue_at cfg imgs b c h w hb' hc hh hw, hget]

/-- Witness for C5: one white `1 x 1` image, `BATCH_SIZE = 1`. -/
theorem blobFromImages_planar_layout_witness :
    [solid 1 1 255 255 255].length = cfg1.BATCH_SIZE ∧
    (∀ img ∈ [solid 1 1 255 255 255], img.rows = cfg1.INPUT_H ∧ img.cols = cfg1.INPUT_W) ∧
    (∀ img ∈ [solid 1 1 255 255 255], ∀ j, img.data j ≤ 255) ∧
    ∃ out, blobFromImages cfg1 [solid 1 1 255 255 255] zeroBuf = some out ∧
      ∀ b c h w img, b < cfg1.BATCH_SIZE → c < 3 → h < cfg1.INPUT_H → w < cfg1.INPUT_W →
        [solid 1 1 255 255 255][b]? = some img →
        out (b * 3 * cfg1.INPUT_W * cfg1.INPUT_H + c * cfg1.INPUT_W * cfg1.INPUT_H
            + h * cfg1.INPUT_W + w) = normalize (img.atVec3b h w c) ∧
        normalize (img.atVec3b h w c) = fin (roundToPrec 24 (roundToPrec 53
          (roundToPrec 53 (roundToPrec 53 ((img.atVec3b h w c : ℚ) / 255) - 1/2) / (1/2)))) ∧
        FloatVal.le (fin (-1)) (normalize (img.atVec3b h w c)) = true ∧
        FloatVal.le (normalize (img.atVec3b h w c)) (fin 1) = true :=
  have h1 : [solid 1 1 255 255 255].length = cfg1.BATCH_SIZE := rfl
  have h2 : ∀ img ∈ [solid 1 1 255 255 255],
      img.rows = cfg1.INPUT_H ∧ img.cols = cfg1.INPUT_W := by
    intro img himg
    rw [List.mem_singleton] at himg
    subst himg
    exact ⟨rfl, rfl⟩
  have h3 : ∀ img ∈ [solid 1 1 255 255 255], ∀ j, img.data j ≤ 255 := by
    intro img himg j
    rw [List.mem_singleton] at himg
    subst himg
    simp only [solid]
    split_ifs <;> exact le_rfl
  ⟨h1, h2, h3, blobFromImages_planar_layout cfg1 [solid 1 1 255 255 255] zeroBuf h1 h2 h3⟩

/-- C10. Determinism of the marshalling: for a batch of `BATCH_SIZE` images of size
`INPUT_H x INPUT_W`, `blobFromImages` leaves the same contents in the first
`BATCH_SIZE*3*INPUT_H*INPUT_W` elements of the input buffer whatever the buffer held before,
and touches nothing beyond them; its sequence of store offsets is exactly
`0, 1, …, BATCH_SIZE*3*INPUT_H*INPUT_W - 1`, each once; the flat index map is a bijection from
the tuples `(b, c, h, w)` onto that range; and pre-processing, `blobFromImages`, an identity
inference and `imagesPostProcess` give the same pixels in two runs on the same batch,
whatever the buffer and the fresh image storage held in each run. -/
theorem blobFromImages_deterministic (cfg : Config) (resize : ℕ → ℕ → Mat → Mat)
    (imgs : List Mat) (hlen : imgs.length = cfg.BATCH_SIZE)
    (hsize : ∀ img ∈ imgs, img.rows = cfg.INPUT_H ∧ img.cols = cfg.INPUT_W)
    (hC : cfg.CHANNELS = 3)
    (hO : cfg.OUTPUT_SIZE = cfg.BATCH_SIZE * cfg.CHANNELS * cfg.INPUT_H * cfg.INPUT_W)
    (hH : 0 < cfg.INPUT_H) (hW : 0 < cfg.INPUT_W) :
    (∀ buf1 buf2 : Buf, ∃ out1 out2,
      blobFromImages cfg imgs buf1 = some out1 ∧ blobFromImages cfg imgs buf2 = some out2 ∧
      (∀ j, j < cfg.BATCH_SIZE * 3 * cfg.INPUT_H * cfg.INPUT_W → out1 j = out2 j) ∧
      (∀ j, cfg.BATCH_SIZE * 3 * cfg.INPUT_H * cfg.INPUT_W ≤ j → out1 j = buf1 j)) ∧
    (∃ ws, blobStores cfg imgs cfg.BATCH_SIZE = some ws ∧
      ws.map Prod.fst = List.range (cfg.BATCH_SIZE * 3 * cfg.INPUT_H * cfg.INPUT_W)) ∧
    (∀ b c h w, b < cfg.BATCH_SIZE → c < 3 → h < cfg.INPUT_H → w < cfg.INPUT_W →
      blobIndex cfg b c h w < cfg.BATCH_SIZE * 3 * cfg.INPUT_H * cfg.INPUT_W) ∧
    (∀ b c h w b' c' h' w', c < 3 → h < cfg.INPUT_H → w < cfg.INPUT_W →
      c' < 3 → h' < cfg.INPUT_H → w' < cfg.INPUT_W →
      blobIndex cfg b c h w = blobIndex cfg b' c' h' w' → b = b' ∧ c = c' ∧ h = h' ∧ w = w') ∧
    (∀ j, j < cfg.BATCH_SIZE * 3 * cfg.INPUT_H * cfg.INPUT_W →
      ∃ b c h w, b < cfg.BATCH_SIZE ∧ c < 3 ∧ h < cfg.INPUT_H ∧ w < cfg.INPUT_W ∧
        blobIndex cfg b c h w = j) ∧
    (∀ (buf1 buf2 : Buf) (heap1 heap2 : ℕ → ℕ → ℕ), ∃ in1 in2 res1 res2,
      blobFromImages cfg (imgs.map (imagePreProcess cfg resize)) buf1 = some in1 ∧
      imagesPostProcess cfg heap1 in1 [] = some res1 ∧
      blobFromImages cfg (imgs.map (imagePreProcess cfg resize)) buf2 = some in2 ∧
      imagesPostProcess cfg heap2 in2 [] = some res2 ∧
      res1.length = cfg.BATCH_SIZE ∧ res2.length = cfg.BATCH_SIZE ∧
      ∀ b h w k, b < cfg.BATCH_SIZE → h < cfg.INPUT_H → w < cfg.INPUT_W → k < 3 →
        (res1[b]?).map (fun m => m.atVec3b h w k) =
          (res2[b]?).map (fun m => m.atVec3b h w k)) := by
  have _hs := hsize
  have hsz : cfg.BATCH_SIZE * 3 * cfg.INPUT_H * cfg.INPUT_W = cfg.BATCH_SIZE * cfg.slotSize := by
    unfold Config.slotSize; ring
  have hle : cfg.BATCH_SIZE ≤ imgs.length := le_of_eq hlen.symm
  have hle' : cfg.BATCH_SIZE ≤ (imgs.map (imagePreProcess cfg resize)).length := by
    rw [List.length_map]; exact hle
  rw [hsz]
  refine ⟨?_, ?_, ?_, ?_, ?_, ?_⟩
  · intro buf1 buf2
    refine ⟨_, _, blobFromImages_eq cfg imgs buf1 hle, blobFromImages_eq cfg imgs buf2 hle,
      ?_, ?_⟩
    · intro j hj
      simp only [hj, if_true]
    · intro j hj
      simp only [Nat.not_lt.mpr hj, if_false]
  · refine ⟨_, blobStores_eq cfg imgs _ hle, ?_⟩
    rw [List.map_map]
    exact List.map_id'' (fun _ => rfl) _
  · intro b c h w hb hc hh hw
    exact blobIndex_lt cfg b c h w hb hc hh hw
  · intro b c h w b' c' h' w' hc hh hw hc' hh' hw' heq
    exact blobIndex_inj cfg b c h w b' c' h' w' hc hh hw hc' hh' hw' heq
  · intro j hj
    exact blobIndex_surj cfg j hj
  · intro buf1 buf2 heap1 heap2
    refine ⟨_, _, _, _, blobFromImages_eq cfg _ buf1 hle',
      imagesPostProcess_eq cfg heap1 _ [] hC hO hH hW,
      blobFromImages_eq cfg _ buf2 hle',
      imagesPostProcess_eq cfg heap2 _ [] hC hO hH hW, by simp, by simp, ?_⟩
    intro b h w k hb hh hw hk
    have hb' : b < (imgs.map (imagePreProcess cfg resize)).length := by omega
    simp only [List.nil_append, List.getElem?_map, List.getElem?_range hb, Option.map_some']
    rw [slotImage_of_blob cfg _ buf1 _ hC b h w k hb hb' hh hw hk,
      slotImage_of_blob cfg _ buf2 _ hC b h w k hb hb' hh hw hk]

/-- Witness for C10: two solid `1 x 2` images, `BATCH_SIZE = 2`. -/
theorem blobFromImages_deterministic_witness :
    [solid 1 2 10 20 30, solid 1 2 40 50 60].length = cfg2.BATCH_SIZE ∧
    (∀ img ∈ [solid 1 2 10 20 30, solid 1 2 40 50 60],
      img.rows = cfg2.INPUT_H ∧ img.cols = cfg2.INPUT_W) ∧
    cfg2.CHANNELS = 3 ∧
    cfg2.OUTPUT_SIZE = cfg2.BATCH_SIZE * cfg2.CHANNELS * cfg2.INPUT_H * cfg2.INPUT_W ∧
    0 < cfg2.INPUT_H ∧ 0 < cfg2.INPUT_W ∧
    (∃ ws, blobStores cfg2 [solid 1 2 10 20 30, solid 1 2 40 50 60] cfg2.BATCH_SIZE = some ws ∧
      ws.map Prod.fst = List.range (cfg2.BATCH_SIZE * 3 * cfg2.INPUT_H * cfg2.INPUT_W)) :=
  have h1 : [solid 1 2 10 20 30, solid 1 2 40 50 60].length = cfg2.BATCH_SIZE := rfl
  have h2 : ∀ img ∈ [solid 1 2 10 20 30, solid 1 2 40 50 60],
      img.rows = cfg2.INPUT_H ∧ img.cols = cfg2.INPUT_W := by
    intro img himg
    simp only [List.mem_cons, List.mem_singleton, List.not_mem_nil, or_false] at himg
    rcases himg with h | h <;> subst h <;> exact ⟨rfl, rfl⟩
  ⟨h1, h2, rfl, rfl, by decide, by decide,
    (blobFromImages_deterministic cfg2 sampleResize [solid 1 2 10 20 30, solid 1 2 40 50 60]
      h1 h2 rfl rfl (by decide) (by decide)).2.1⟩

/-! ## Claims on the post-processor and the round trip -/

/-- C9. One image per batch slot, in bounds: when
`OUTPUT_SIZE = BATCH_SIZE * CHANNELS * INPUT_H * INPUT_W`, `CHANNELS = 3` and the resolution is
positive, the loop of `imagesPostProcess` returns after `BATCH_SIZE + 1` tests of its condition
and appends exactly `BATCH_SIZE` images of size `INPUT_H x INPUT_W` in slot order, the `k`-th
built from `output[k*step .. (k+1)*step)` with `step = INPUT_H*INPUT_W*CHANNELS`; every read
index `index + i` is below `OUTPUT_SIZE`; and for `i < step` the decomposition
`w = i % INPUT_W`, `h = (i / INPUT_W) % INPUT_H`, `c = i / (INPUT_W*INPUT_H)` is in bounds and
maps the step positions one-to-one onto the triples `(c, h, w)`. -/
theorem imagesPostProcess_slots (cfg : Config) (heap : ℕ → ℕ → ℕ) (output : Buf)
    (cvimgs : List Mat) (hC : cfg.CHANNELS = 3)
    (hO : cfg.OUTPUT_SIZE = cfg.BATCH_SIZE * cfg.CHANNELS * cfg.INPUT_H * cfg.INPUT_W)
    (hH : 0 < cfg.INPUT_H) (hW : 0 < cfg.INPUT_W) :
    ∃ res : List Mat,
      (∀ fuel, cfg.BATCH_SIZE < fuel →
        postLoop cfg heap output fuel 0 cvimgs = some (cvimgs ++ res)) ∧
      imagesPostProcess cfg heap output cvimgs = some (cvimgs ++ res) ∧
      res.length = cfg.BATCH_SIZE ∧
      (∀ k img, res[k]? = some img →
        img.rows = cfg.INPUT_H ∧ img.cols = cfg.INPUT_W ∧
        ∀ h w c, h < cfg.INPUT_H → w < cfg.INPUT_W → c < 3 →
          img.atVec3b h w c =
            denorm (output (k * (cfg.INPUT_H * cfg.INPUT_W * cfg.CHANNELS)
              + ((2 - c) * (cfg.INPUT_W * cfg.INPUT_H) + h * cfg.INPUT_W + w))) ∧
          (2 - c) * (cfg.INPUT_W * cfg.INPUT_H) + h * cfg.INPUT_W + w
            < cfg.INPUT_H * cfg.INPUT_W * cfg.CHANNELS) ∧
      (∀ k i, k < cfg.BATCH_SIZE → i < cfg.INPUT_H * cfg.INPUT_W * cfg.CHANNELS →
        k * (cfg.INPUT_H * cfg.INPUT_W * cfg.CHANNELS) + i < cfg.OUTPUT_SIZE) ∧
      (∀ i, i < cfg.INPUT_H * cfg.INPUT_W * cfg.CHANNELS →
        (pixelCoord cfg i).1 < cfg.INPUT_W ∧ (pixelCoord cfg i).2.1 < cfg.INPUT_H ∧
          (pixelCoord cfg i).2.2 < 3) ∧
      (∀ i j, i < cfg.INPUT_H * cfg.INPUT_W * cfg.CHANNELS →
        j < cfg.INPUT_H * cfg.INPUT_W * cfg.CHANNELS →
        pixelCoord cfg i = pixelCoord cfg j → i = j) ∧
      (∀ c h w, c < 3 → h < cfg.INPUT_H → w < cfg.INPUT_W →
        ∃ i, i < cfg.INPUT_H * cfg.INPUT_W * cfg.CHANNELS ∧ pixelCoord cfg i = (w, h, c)) := by
  refine ⟨_, fun fuel hf => postLoop_all cfg heap output cvimgs hC hO hH hW fuel hf,
    imagesPostProcess_eq cfg heap output cvimgs hC hO hH hW, by simp, ?_, ?_, ?_, ?_, ?_⟩
  · intro k img himg
    rw [List.getElem?_map] at himg
    have hk : k < cfg.BATCH_SIZE := by
      by_contra hcon
      rw [List.getElem?_eq_none (by simpa using Nat.le_of_not_lt hcon)] at himg
      simp at himg
    rw [List.getElem?_range hk, Option.map_some'] at himg
    have himg' := Option.some.inj himg
    subst himg'
    obtain ⟨r, c, px⟩ := slotImage_spec cfg (heap (k * (cfg.INPUT_H * cfg.INPUT_W * cfg.CHANNELS)))
      output (k * (cfg.INPUT_H * cfg.INPUT_W * cfg.CHANNELS)) hC
    refine ⟨r, c, fun h w c hh hw hc => ⟨px h w c hh hw hc, ?_⟩⟩
    rw [hC]
    exact pixelCoord_lt_of cfg (2 - c) h w (by omega) hh hw
  · intro k i hk hi
    rw [hO]
    calc k * (cfg.INPUT_H * cfg.INPUT_W * cfg.CHANNELS) + i
        < k * (cfg.INPUT_H * cfg.INPUT_W * cfg.CHANNELS)
          + cfg.INPUT_H * cfg.INPUT_W * cfg.CHANNELS := by omega
      _ = (k + 1) * (cfg.INPUT_H * cfg.INPUT_W * cfg.CHANNELS) := by ring
      _ ≤ cfg.BATCH_SIZE * (cfg.INPUT_H * cfg.INPUT_W * cfg.CHANNELS) :=
        Nat.mul_le_mul_right _ hk
      _ = cfg.BATCH_SIZE * cfg.CHANNELS * cfg.INPUT_H * cfg.INPUT_W := by ring
  · intro i hi
    rw [hC] at hi
    exact pixelCoord_bounds cfg i hi
  · intro i j _ _ hij
    rw [pixelCoord_recompose cfg i, pixelCoord_recompose cfg j, hij]
  · intro c h w hc hh hw
    refine ⟨c * (cfg.INPUT_W * cfg.INPUT_H) + h * cfg.INPUT_W + w, ?_,
      pixelCoord_of cfg c h w hh hw⟩
    rw [hC]
    exact pixelCoord_lt_of cfg c h w hc hh hw

/-- Witness for C9: `BATCH_SIZE = 2`, a `1 x 2` resolution, a tensor of zeros. -/
theorem imagesPostProcess_slots_witness :
    cfg2.CHANNELS = 3 ∧
    cfg2.OUTPUT_SIZE = cfg2.BATCH_SIZE * cfg2.CHANNELS * cfg2.INPUT_H * cfg2.INPUT_W ∧
    0 < cfg2.INPUT_H ∧ 0 < cfg2.INPUT_W ∧
    ∃ res : List Mat,
      imagesPostProcess cfg2 (fun _ => sevens) zeroBuf [] = some ([] ++ res) ∧
      res.length = cfg2.BATCH_SIZE :=
  ⟨rfl, rfl, by decide, by decide,
    (imagesPostProcess_slots cfg2 (fun _ => sevens) zeroBuf [] rfl rfl (by decide)
      (by decide)).elim fun res h => ⟨res, h.2.1, h.2.2.1⟩⟩

/-- C1. Round-trip channel order: for a batch of `BATCH_SIZE` images already at the model
resolution (so that the resize is the identity), `imagePreProcess`, `blobFromImages`, an
identity stand-in for inference and `imagesPostProcess` return `BATCH_SIZE` images in which
channel `k` of pixel `(h, w)` of slot `b` is the normalize/denormalize round trip of channel
`k` of the input pixel `(h, w)` of slot `b`; a solid-colour image in BGR order comes back with
its channels in the same order. -/
theorem roundtrip_channel_order (cfg : Config) (resize : ℕ → ℕ → Mat → Mat)
    (imgs : List Mat) (input : Buf) (heap : ℕ → ℕ → ℕ)
    (hlen : imgs.length = cfg.BATCH_SIZE)
    (hsize : ∀ img ∈ imgs, img.rows = cfg.INPUT_H ∧ img.cols = cfg.INPUT_W)
    (hres : ∀ m : Mat, m.rows = cfg.INPUT_H → m.cols = cfg.INPUT_W →
      resize cfg.INPUT_W cfg.INPUT_H m = m)
    (hC : cfg.CHANNELS = 3)
    (hO : cfg.OUTPUT_SIZE = cfg.BATCH_SIZE * cfg.CHANNELS * cfg.INPUT_H * cfg.INPUT_W)
    (hH : 0 < cfg.INPUT_H) (hW : 0 < cfg.INPUT_W) :
    ∃ blob res,
      blobFromImages cfg (imgs.map (imagePreProcess cfg resize)) input = some blob ∧
      imagesPostProcess cfg heap blob [] = some res ∧
      res.length = cfg.BATCH_SIZE ∧
      (∀ b h w k img, b < cfg.BATCH_SIZE → h < cfg.INPUT_H → w < cfg.INPUT_W → k < 3 →
        imgs[b]? = some img →
        ∃ out, res[b]? = some out ∧
          out.atVec3b h w k = denorm (normalize (img.atVec3b h w k))) ∧
      (∀ b img (colour : ℕ → ℕ), b < cfg.BATCH_SIZE → imgs[b]? = some img →
        (∀ h w k, h < cfg.INPUT_H → w < cfg.INPUT_W → k < 3 →
          img.atVec3b h w k = colour k) →
        ∃ out, res[b]? = some out ∧
          ∀ h w k, h < cfg.INPUT_H → w < cfg.INPUT_W → k < 3 →
            out.atVec3b h w k = denorm (normalize (colour k))) := by
  have hle' : cfg.BATCH_SIZE ≤ (imgs.map (imagePreProcess cfg resize)).length := by
    rw [List.length_map]; omega
  have key : ∀ b h w k img, b < cfg.BATCH_SIZE → h < cfg.INPUT_H → w < cfg.INPUT_W → k < 3 →
      imgs[b]? = some img →
      (slotImage cfg (heap (b * (cfg.INPUT_H * cfg.INPUT_W * cfg.CHANNELS)))
        (fun j => if j < cfg.BATCH_SIZE * cfg.slotSize
          then blobValue cfg (imgs.map (imagePreProcess cfg resize)) j else input j)
        (b * (cfg.INPUT_H * cfg.INPUT_W * cfg.CHANNELS))).atVec3b h w k
        = denorm (normalize (img.atVec3b h w k)) := by
    intro b h w k img hb hh hw hk himg
    have hb' : b < imgs.length := by omega
    have hb'' : b < (imgs.map (imagePreProcess cfg resize)).length := by
      rw [List.length_map]; exact hb'
    have hget : imgs[b] = img := by
      rw [List.getElem?_eq_getElem hb'] at himg
      exact Option.some.inj himg
    have hmem : img ∈ imgs := hget ▸ List.getElem_mem hb'
    obtain ⟨hr, hc⟩ := hsize img hmem
    rw [slotImage_of_blob cfg _ input _ hC b h w k hb hb'' hh hw hk]
    have hpre : (imgs.map (imagePreProcess cfg resize)).get ⟨b, hb''⟩ = cvtColor img := by
      simp only [List.get_eq_getElem, List.getElem_map, hget, imagePreProcess]
      exact hres (cvtColor img) hr hc
    rw [hpre, cvtColor_atVec3b _ _ _ _ (by omega)]
    have : 2 - (2 - k) = k := by omega
    rw [this]
  have hres' : ∀ b, b < cfg.BATCH_SIZE →
      ((List.range cfg.BATCH_SIZE).map (fun j =>
        slotImage cfg (heap (j * (cfg.INPUT_H * cfg.INPUT_W * cfg.CHANNELS)))
          (fun j => if j < cfg.BATCH_SIZE * cfg.slotSize
            then blobValue cfg (imgs.map (imagePreProcess cfg resize)) j else input j)
          (j * (cfg.INPUT_H * cfg.INPUT_W * cfg.CHANNELS))))[b]? =
      some (slotImage cfg (heap (b * (cfg.INPUT_H * cfg.INPUT_W * cfg.CHANNELS)))
          (fun j => if j < cfg.BATCH_SIZE * cfg.slotSize
            then blobValue cfg (imgs.map (imagePreProcess cfg resize)) j else input j)
          (b * (cfg.INPUT_H * cfg.INPUT_W * cfg.CHANNELS))) := by
    intro b hb
    rw [List.getElem?_map, List.getElem?_range hb, Option.map_some']
  refine ⟨_, _, blobFromImages_eq cfg _ input hle',
    imagesPostProcess_eq cfg heap _ [] hC hO hH hW, by simp, ?_, ?_⟩
  · intro b h w k img hb hh hw hk himg
    refine ⟨_, by rw [List.nil_append]; exact hres' b hb, key b h w k img hb hh hw hk himg⟩
  · intro b img colour hb himg hcol
    refine ⟨_, by rw [List.nil_append]; exact hres' b hb, ?_⟩
    intro h w k hh hw hk
    rw [key b h w k img hb hh hw hk himg, hcol h w k hh hw hk]

/-- Witness for C1: one solid `1 x 1` image with B = 10, G = 20, R = 30 and `BATCH_SIZE = 1`. -/
theorem roundtrip_channel_order_witness :
    [solid 1 1 10 20 30].length = cfg1.BATCH_SIZE ∧
    (∀ img ∈ [solid 1 1 10 20 30], img.rows = cfg1.INPUT_H ∧ img.cols = cfg1.INPUT_W) ∧
    (∀ m : Mat, m.rows = cfg1.INPUT_H → m.cols = cfg1.INPUT_W →
      sampleResize cfg1.INPUT_W cfg1.INPUT_H m = m) ∧
    cfg1.CHANNELS = 3 ∧
    cfg1.OUTPUT_SIZE = cfg1.BATCH_SIZE * cfg1.CHANNELS * cfg1.INPUT_H * cfg1.INPUT_W ∧
    0 < cfg1.INPUT_H ∧ 0 < cfg1.INPUT_W ∧
    ∃ blob res,
      blobFromImages cfg1 ([solid 1 1 10 20 30].map (imagePreProcess cfg1 sampleResize))
        zeroBuf = some blob ∧
      imagesPostProcess cfg1 (fun _ => sevens) blob [] = some res ∧
      res.length = cfg1.BATCH_SIZE :=
  have h1 : [solid 1 1 10 20 30].length = cfg1.BATCH_SIZE := rfl
  have h2 : ∀ img ∈ [solid 1 1 10 20 30],
      img.rows = cfg1.INPUT_H ∧ img.cols = cfg1.INPUT_W := by
    intro img himg
    rw [List.mem_singleton] at himg
    subst himg
    exact ⟨rfl, rfl⟩
  have h3 : ∀ m : Mat, m.rows = cfg1.INPUT_H → m.cols = cfg1.INPUT_W →
      sampleResize cfg1.INPUT_W cfg1.INPUT_H m = m := by
    intro m hr hc
    cases m with
    | mk rows cols data =>
      simp only [cfg1] at hr hc
      subst hr
      subst hc
      simp only [sampleResize, cfg1, Mat.mk.injEq, true_and]
      funext j
      congr 1
      simp only [Nat.div_one, Nat.mod_one, Nat.mul_one, Nat.add_zero]
      exact Nat.div_add_mod' j 3
  ⟨h1, h2, h3, rfl, rfl, by decide, by decide,
    (roundtrip_channel_order cfg1 sampleResize [solid 1 1 10 20 30] zeroBuf (fun _ => sevens)
      h1 h2 h3 rfl rfl (by decide) (by decide)).elim
      fun blob h => h.elim fun res hr => ⟨blob, res, hr.1, hr.2.1, hr.2.2.1⟩⟩

/-! ## Claims on the inference invoker and the entry point -/

/-- C8, evaluated where it fails: when `cudaStreamSynchronize` returns the non-zero status
700 and every other call returns 0, `doInference` does not abort at that step: it goes on to
`cudaStreamDestroy` and the two `cudaFree` calls and returns normally. -/
theorem doInference_ignores_synchronize_status :
    syncFailRuntime.status .cudaStreamSynchronize = 700 ∧
    doInferenceRun syncFailRuntime =
      ⟨[.cudaMallocInput, .cudaMallocOutput, .cudaStreamCreate, .cudaMemcpyAsyncHostToDevice,
        .enqueueV2, .cudaMemcpyAsyncDeviceToHost, .cudaStreamSynchronize, .cudaStreamDestroy,
        .cudaFreeInput, .cudaFreeOutput], false⟩ := by
  decide

/-- C3, evaluated where it fails: with `BATCH_SIZE = 1` and a `1 x 1` model resolution, a batch
of one `2 x 2` image makes `infer` declare the shape `(1, 2, 2, 3)`, the rows and columns of the
input, with `ndim = 3`. -/
theorem infer_shape_follows_input :
    (infer cfg1 sampleResize identityRuntime ⟨fun _ => sevens, sevens⟩ ⟨zeroBuf, zeroBuf⟩
      ⟨[1, 2, 2, 3], fun _ => 255⟩).map (fun r => (r.1.ndim, r.1.shape)) =
      some (3, [1, 2, 2, 3]) := by
  decide!

/-- C4, evaluated where it fails: with `BATCH_SIZE = 1`, a `1 x 1` model resolution and one
white `1 x 1` image, the image `imagesPostProcess` produces from the output tensor has the
byte 255 at `[0][0][0]`, while element 0 of the returned data is the byte 7 that the fresh
storage of `reshaped` happened to hold. -/
theorem infer_returns_fresh_storage :
    (infer cfg1 sampleResize identityRuntime ⟨fun _ => sevens, sevens⟩ ⟨zeroBuf, zeroBuf⟩
      ⟨[1, 1, 1, 3], fun _ => 255⟩).map (fun r => r.1.data 0) = some 7 ∧
    ((infer cfg1 sampleResize identityRuntime ⟨fun _ => sevens, sevens⟩ ⟨zeroBuf, zeroBuf⟩
      ⟨[1, 1, 1, 3], fun _ => 255⟩).bind (fun r =>
        imagesPostProcess cfg1 (fun _ => sevens) r.2.output [])).map
          (fun res => res.map (fun m => m.atVec3b 0 0 0)) = some [255] := by
  decide!

/-- C7 as stated fails: with `BATCH_SIZE = 1`, a batch of two white `1 x 1` images is not
rejected; `infer` returns an array description and element 0 of the input tensor buffer,
`0.0` before the call, holds `1.0` after it. -/
theorem infer_larger_batch_counterexample :
    (infer cfg1 sampleResize identityRuntime ⟨fun _ => sevens, sevens⟩ ⟨zeroBuf, zeroBuf⟩
      ⟨[2, 1, 1, 3], fun _ => 255⟩).map (fun r => (r.1.shape, r.2.input 0)) =
      some ([2, 1, 1, 3], fin 1) ∧
    zeroBuf 0 = fin 0 := by
  decide!

/-- C7, amended: `infer` has no batch-size check.  For every input batch with more images than
`BATCH_SIZE`, when no checked runtime call fails, `infer` returns an array description;
`blobFromImages` has overwritten the element of the input tensor buffer at every
`(b, c, h, w)` with `b < BATCH_SIZE` by the normalized channel of the pre-processed `b`-th
image and has left the elements from `BATCH_SIZE*3*INPUT_H*INPUT_W` on untouched; the images
beyond the first `BATCH_SIZE` are ignored: the buffers end as for the batch of the first
`BATCH_SIZE` images. -/
theorem infer_larger_batch_not_rejected (cfg : Config) (resize : ℕ → ℕ → Mat → Mat)
    (rt : Runtime) (heap : Heap) (st : Buffers) (n rows cols ch : ℕ) (data : ℕ → ℕ)
    (hn : cfg.BATCH_SIZE < n) (hrt : (doInferenceRun rt).aborted = false)
    (hC : cfg.CHANNELS = 3)
    (hO : cfg.OUTPUT_SIZE = cfg.BATCH_SIZE * cfg.CHANNELS * cfg.INPUT_H * cfg.INPUT_W)
    (hH : 0 < cfg.INPUT_H) (hW : 0 < cfg.INPUT_W) :
    ∃ out st',
      infer cfg resize rt heap st ⟨[n, rows, cols, ch], data⟩ = some (out, st') ∧
      (∀ b c h w, b < cfg.BATCH_SIZE → c < 3 → h < cfg.INPUT_H → w < cfg.INPUT_W →
        st'.input (b * 3 * cfg.INPUT_W * cfg.INPUT_H + c * cfg.INPUT_W * cfg.INPUT_H
            + h * cfg.INPUT_W + w) =
          normalize ((imagePreProcess cfg resize
            ⟨rows, cols, fun j => data (b * rows * cols * ch + j)⟩).atVec3b h w c)) ∧
      (∀ j, cfg.BATCH_SIZE * 3 * cfg.INPUT_H * cfg.INPUT_W ≤ j → st'.input j = st.input j) ∧
      (∃ out0, infer cfg resize rt heap st ⟨[cfg.BATCH_SIZE, rows, cols, ch], data⟩
        = some (out0, st')) := by
  have hsz : cfg.BATCH_SIZE * 3 * cfg.INPUT_H * cfg.INPUT_W = cfg.BATCH_SIZE * cfg.slotSize := by
    unfold Config.slotSize; ring
  have hs : 0 < cfg.slotSize := by
    unfold Config.slotSize
    exact Nat.mul_pos (by norm_num) (Nat.mul_pos hH hW)
  have hsame : ∀ k, k < cfg.BATCH_SIZE * cfg.slotSize →
      blobValue cfg ((List.range n).map fun index => imagePreProcess cfg resize
        ⟨rows, cols, fun j => data (index * rows * cols * ch + j)⟩) k =
      blobValue cfg ((List.range cfg.BATCH_SIZE).map fun index => imagePreProcess cfg resize
        ⟨rows, cols, fun j => data (index * rows * cols * ch + j)⟩) k := by
    intro k hk
    have hb : k / cfg.slotSize < cfg.BATCH_SIZE := by
      rw [Nat.div_lt_iff_lt_mul hs]; exact hk
    unfold blobValue
    rw [List.getD_eq_getElem _ _ (by rw [List.length_map, List.length_range]; omega),
      List.getD_eq_getElem _ _ (by rw [List.length_map, List.length_range]; exact hb)]
    simp only [List.getElem_map, List.getElem_range]
  have hfun : (fun k => if k < cfg.BATCH_SIZE * cfg.slotSize then
        blobValue cfg ((List.range n).map fun index => imagePreProcess cfg resize
          ⟨rows, cols, fun j => data (index * rows * cols * ch + j)⟩) k
      else st.input k) =
      (fun k => if k < cfg.BATCH_SIZE * cfg.slotSize then
        blobValue cfg ((List.range cfg.BATCH_SIZE).map fun index => imagePreProcess cfg resize
          ⟨rows, cols, fun j => data (index * rows * cols * ch + j)⟩) k
      else st.input k) := by
    funext k
    by_cases hk : k < cfg.BATCH_SIZE * cfg.slotSize
    · simp only [hk, if_true]; exact hsame k hk
    · simp only [hk, if_false]
  refine ⟨_, _, infer_eq cfg resize rt heap st n rows cols ch data (Nat.le_of_lt hn) hrt
    hC hO hH hW, ?_, ?_, ?_⟩
  · intro b c h w hb hc hh hw
    show (fun k => if k < cfg.BATCH_SIZE * cfg.slotSize then _ else st.input k)
      (blobIndex cfg b c h w) = _
    simp only [blobIndex_lt cfg b c h w hb hc hh hw, if_true]
    rw [blobValue_at cfg _ b c h w
      (by rw [List.length_map, List.length_range]; omega) hc hh hw]
    simp only [List.get_eq_getElem, List.getElem_map, List.getElem_range]
  · intro j hj
    rw [hsz] at hj
    simp only [Nat.not_lt.mpr hj, if_false]
  · refine ⟨⟨3, [cfg.BATCH_SIZE, rows, cols, 3],
      [cfg.BATCH_SIZE * cols * 3, cols * 3, 3, 1], heap.reshaped⟩, ?_⟩
    rw [infer_eq cfg resize rt heap st cfg.BATCH_SIZE rows cols ch data le_rfl hrt hC hO hH hW,
      hfun]

/-- Witness for the amended C7: `BATCH_SIZE = 1` and a batch of two white `1 x 1` images. -/
theorem infer_larger_batch_not_rejected_witness :
    cfg1.BATCH_SIZE < 2 ∧ (doInferenceRun identityRuntime).aborted = false ∧
    cfg1.CHANNELS = 3 ∧
    cfg1.OUTPUT_SIZE = cfg1.BATCH_SIZE * cfg1.CHANNELS * cfg1.INPUT_H * cfg1.INPUT_W ∧
    0 < cfg1.INPUT_H ∧ 0 < cfg1.INPUT_W ∧
    ∃ out st',
      infer cfg1 sampleResize identityRuntime ⟨fun _ => sevens, sevens⟩ ⟨zeroBuf, zeroBuf⟩
        ⟨[2, 1, 1, 3], fun _ => 255⟩ = some (out, st') ∧
      (∃ out0, infer cfg1 sampleResize identityRuntime ⟨fun _ => sevens, sevens⟩
        ⟨zeroBuf, zeroBuf⟩ ⟨[cfg1.BATCH_SIZE, 1, 1, 3], fun _ => 255⟩ = some (out0, st')) :=
  ⟨by decide, by decide, rfl, rfl, by decide, by decide,
    (infer_larger_batch_not_rejected cfg1 sampleResize identityRuntime
      ⟨fun _ => sevens, sevens⟩ ⟨zeroBuf, zeroBuf⟩ 2 1 1 3 (fun _ => 255)
      (by decide) (by decide) rfl rfl (by decide) (by decide)).elim
      fun out h => h.elim fun st' hs => ⟨out, st', hs.1, hs.2.2.2⟩⟩

end FaceRestoration
